import Mathlib
set_option maxRecDepth 10000

/-!
# Verification of the AutoValuate data-sanitization pipeline

Shallow embedding of the data-sanitizer core (`src/utils` revision in
`src/unnamed/part_001`, first document): CSV ledger parsing, relevance
scoring, top-K selection, aggregation, insight composition and the
sensitivity checker.  JavaScript numbers are modelled as exact rationals
plus a NaN sentinel (`JsNum`); all inputs of interest are decimal
literals, where IEEE doubles and rationals agree.  JavaScript strings are
modelled as Lean strings (ASCII case folding); the ambient JavaScript
builtins used by the source (`String.prototype.trim`, `split`,
`includes`, `toLowerCase`, `toFixed`, `parseFloat`, truthiness, stable
`Array.prototype.sort`, insertion-ordered `Map`) are modelled explicitly
below.
-/

/- The kernel evaluates `Rat` arithmetic directly; these operations are
only `@[irreducible]` for elaborator performance, which would block
`decide` on the concrete scenario theorems below. -/
set_option allowUnsafeReducibility true
attribute [semireducible] Rat.add Rat.mul Rat.inv Rat.sub

namespace AutoValuate

/-! ## JavaScript string builtins -/

/-- ASCII-scope model of `String.prototype.toLowerCase`. -/
def lowerStr (s : String) : String := String.mk (s.data.map Char.toLower)

/-- ASCII-scope model of `String.prototype.toUpperCase`. -/
def upperStr (s : String) : String := String.mk (s.data.map Char.toUpper)

/-- Model of `String.prototype.split` with a one-character separator:
splits into segments, never returns an empty list (`"".split(c) = [""]`). -/
def splitOnChar (c : Char) : List Char → List (List Char)
  | [] => [[]]
  | x :: xs =>
    if x = c then [] :: splitOnChar c xs
    else
      match splitOnChar c xs with
      | [] => [[x]]
      | l :: ls => (x :: l) :: ls

/-- Model of `String.prototype.trim`: strip whitespace from both ends. -/
def trimChars (cs : List Char) : List Char :=
  ((cs.dropWhile Char.isWhitespace).reverse.dropWhile Char.isWhitespace).reverse

/-- `trim` on strings. -/
def jsTrim (s : String) : String := String.mk (trimChars s.data)

/-- `sub` occurs as a contiguous run inside `hay`. -/
def occursIn (sub : List Char) : List Char → Bool
  | [] => sub.isEmpty
  | c :: rest => sub.isPrefixOf (c :: rest) || occursIn sub rest

/-- Model of `String.prototype.includes`: substring containment. -/
def containsSubstrB (hay sub : String) : Bool := occursIn sub.data hay.data

/-- First-occurrence deduplication, as performed by `[...new Set(xs)]`
(JavaScript `Set` preserves insertion order). -/
def dedupFirst (l : List String) : List String :=
  l.foldl (fun acc x => if x ∈ acc then acc else acc ++ [x]) []

/-! ## JavaScript numbers -/

/-- A JavaScript number restricted to the values this program produces:
either NaN (the `parseFloat` failure sentinel) or an exact rational. -/
inductive JsNum where
  | nan : JsNum
  | num : ℚ → JsNum
deriving DecidableEq

/-- JavaScript truthiness of a possibly-absent number:
`undefined`, `NaN` and `0` are falsy. -/
def truthyNum : Option JsNum → Bool
  | some (.num q) => q ≠ 0
  | _ => false

/-- Numeric value of a possibly-absent number; only meaningful after a
`truthyNum` guard (mirrors the source's `!` non-null assertions). -/
def qOf : Option JsNum → ℚ
  | some (.num q) => q
  | _ => 0

/-- JavaScript truthiness of a possibly-absent string: `undefined` and
`""` are falsy. -/
def truthyStr : Option String → Bool
  | some s => s ≠ ""
  | none => false

/-- `x || dflt` on a possibly-absent string. -/
def strOrDefault (o : Option String) (dflt : String) : String :=
  match o with
  | some s => if s = "" then dflt else s
  | none => dflt

/-- String interpolation of a possibly-absent value (`${undefined}`
renders as `"undefined"`). -/
def interpStr : Option String → String
  | some s => s
  | none => "undefined"

/-- Decimal digit sequence to a natural number. -/
def digitsToNat (cs : List Char) : Nat :=
  cs.foldl (fun acc c => 10 * acc + (c.toNat - '0'.toNat)) 0

/-- Model of `parseFloat` on the decimal literals this program's ledger
grammar produces: optional leading whitespace, optional sign, integer
digits, optional fraction digits; NaN when no digits are found.
(Exponents and `Infinity` are outside the modelled grammar.) -/
def parseFloatChars (cs : List Char) : JsNum :=
  let cs := cs.dropWhile Char.isWhitespace
  let sign : ℚ := if cs.headD ' ' = '-' then -1 else 1
  let cs := match cs with
    | '-' :: rest => rest
    | '+' :: rest => rest
    | _ => cs
  let intDigits := cs.takeWhile Char.isDigit
  let rest := cs.dropWhile Char.isDigit
  let fracDigits := match rest with
    | '.' :: r => r.takeWhile Char.isDigit
    | _ => []
  if intDigits = [] ∧ fracDigits = [] then .nan
  else .num (sign * ((digitsToNat intDigits : ℚ) +
    (digitsToNat fracDigits : ℚ) / (10 : ℚ) ^ fracDigits.length))

/-- `parseFloat` applied to a possibly-absent cell
(`parseFloat(undefined)` is NaN). -/
def jsParseFloat : Option (List Char) → JsNum
  | none => .nan
  | some cs => parseFloatChars cs

/-- Model of `Number.prototype.toFixed`: round the magnitude half-up to
`fd` decimals, keep the sign, print with exactly `fd` fraction digits. -/
def jsToFixed (q : ℚ) (fd : Nat) : String :=
  let sgn := if q < 0 then "-" else ""
  let x : ℚ := |q| * (10 : ℚ) ^ fd + 1 / 2
  let mn : Nat := x.num.toNat / x.den
  let ip := mn / 10 ^ fd
  let fp := mn % 10 ^ fd
  if fd = 0 then sgn ++ toString ip
  else
    let fs := toString fp
    sgn ++ toString ip ++ "." ++ String.mk (List.replicate (fd - fs.length) '0') ++ fs

/-! ## Data model -/

/-- One past transaction (source `HistoricalRecord`); every field may be
absent.  A numeric field holds `some .nan` when its cell failed to parse
(the property was assigned `NaN`), which all downstream truthiness
guards treat like absence. -/
structure HistoricalRecord where
  brand : Option String := none
  model : Option String := none
  variant : Option String := none
  year : Option String := none
  boughtPrice : Option JsNum := none
  soldPrice : Option JsNum := none
  date : Option String := none
deriving DecidableEq

/-- The vehicle being valued. -/
structure TargetVehicle where
  brand : String
  model : String
deriving DecidableEq

/-- One (brand, model) cluster of selected records (source `AggregatedData`). -/
structure AggregatedData where
  brandModel : String
  count : Nat
  avgMargin : ℚ
  years : List String
deriving DecidableEq

/-- The structured margin summary exposed to the UI. -/
structure MarginData where
  percentage : ℚ
  description : String
deriving DecidableEq

/-- The core output (source return type of `sanitizeHistoricalData`). -/
structure ValuationInsight where
  insights : String
  marginData : Option MarginData
deriving DecidableEq

/-! ## Ledger parser -/

/-- One header/value assignment step of the parser's `headers.forEach`:
each matching substring test overwrites the corresponding field. -/
def applyHeader (rec : HistoricalRecord) (header : List Char)
    (value : Option (List Char)) : HistoricalRecord :=
  let rec1 := if occursIn "brand".data header then
    { rec with brand := value.map String.mk } else rec
  let rec2 := if occursIn "model".data header then
    { rec1 with model := value.map String.mk } else rec1
  let rec3 := if occursIn "variant".data header then
    { rec2 with variant := value.map String.mk } else rec2
  let rec4 := if occursIn "year".data header then
    { rec3 with year := value.map String.mk } else rec3
  let rec5 := if occursIn "date".data header then
    { rec4 with date := value.map String.mk } else rec4
  let rec6 := if occursIn "bought".data header || occursIn "purchase".data header then
    { rec5 with boughtPrice := some (jsParseFloat value) } else rec5
  let rec7 := if occursIn "sold".data header || occursIn "sale".data header then
    { rec6 with soldPrice := some (jsParseFloat value) } else rec6
  rec7

/-- Build one record from one data line against the parsed headers. -/
def parseRow (headers : List (List Char)) (line : List Char) : HistoricalRecord :=
  let values := (splitOnChar ',' line).map trimChars
  headers.enum.foldl (fun rec p => applyHeader rec p.2 values[p.1]?) {}

/-- Source `parseCSV`: split the trimmed input on newlines, read the first
line as a (lowercased, comma-split, trimmed) header, build one record per
remaining line. -/
def parseCSV (csvData : String) : List HistoricalRecord :=
  if jsTrim csvData = "" then []
  else
    let lines := splitOnChar '\n' (trimChars csvData.data)
    if lines.length < 2 then []
    else
      let headers := ((splitOnChar ',' ((lines.headD []).map Char.toLower)).map trimChars)
      (lines.drop 1).map (parseRow headers)

/-! ## Relevance scorer and top-K selector -/

/-- `r.f?.toLowerCase() === t.toLowerCase()`. -/
def optLowerEq (o : Option String) (t : String) : Bool :=
  match o with
  | some s => lowerStr s = lowerStr t
  | none => false

/-- Source `calculateRelevance`: +50 exact brand, +100 exact model, +75
partial (substring) model match; the partial check is not exclusive with
the exact one. -/
def calculateRelevance (record : HistoricalRecord) (target : TargetVehicle) : Nat :=
  let score := 0
  let score := if optLowerEq record.brand target.brand then score + 50 else score
  let score := if optLowerEq record.model target.model then score + 100 else score
  let score :=
    if truthyStr record.model ∧ target.model ≠ "" then
      let recordModel := lowerStr (interpStr record.model)
      let targetModel := lowerStr target.model
      if containsSubstrB recordModel targetModel ∨ containsSubstrB targetModel recordModel then
        score + 75
      else score
    else score
  score

/-- Stable descending insertion by key: the new element goes before the
first element whose key is not larger (ties keep earlier-inserted
elements that arrived later in the scan behind, see `sortDescKey`). -/
def insertDescKey (f : α → Nat) (x : α) : List α → List α
  | [] => [x]
  | y :: ys => if f x < f y then y :: insertDescKey f x ys else x :: y :: ys

/-- Stable descending sort by key — the unique behaviour of the
ECMAScript stable `Array.prototype.sort` under comparator
`(a, b) => key(b) - key(a)`. -/
def sortDescKey (f : α → Nat) : List α → List α
  | [] => []
  | x :: xs => insertDescKey f x (sortDescKey f xs)

/-- Source `smartFilter`: score, drop zero-relevance records, stable-sort
descending by score, truncate to `maxRecords`. -/
def smartFilter (records : List HistoricalRecord) (target : TargetVehicle)
    (maxRecords : Nat := 50) : List HistoricalRecord :=
  let scored := records.map (fun record => (record, calculateRelevance record target))
  let kept := scored.filter (fun item => 0 < item.2)
  let sorted := sortDescKey (fun item => item.2) kept
  (sorted.take maxRecords).map (fun item => item.1)

/-! ## Aggregator -/

/-- Group key `"{brand || 'Unknown'} {model || 'Unknown'}"`. -/
def groupKey (r : HistoricalRecord) : String :=
  strOrDefault r.brand "Unknown" ++ " " ++ strOrDefault r.model "Unknown"

/-- Append `r` to the entry of `key` in an insertion-ordered association
list, or add a new entry at the end — the behaviour of the source's
`Map`-based grouping. -/
def insertGrouped (gs : List (String × List HistoricalRecord)) (key : String)
    (r : HistoricalRecord) : List (String × List HistoricalRecord) :=
  match gs with
  | [] => [(key, [r])]
  | (k, rs) :: rest =>
    if k = key then (k, rs ++ [r]) :: rest
    else (k, rs) :: insertGrouped rest key r

/-- The source's `Map<string, HistoricalRecord[]>` grouping pass. -/
def groupRecords (records : List HistoricalRecord) : List (String × List HistoricalRecord) :=
  records.foldl (fun gs r => insertGrouped gs (groupKey r) r) []

/-- Margin eligibility filter `r.boughtPrice && r.soldPrice && r.boughtPrice > 0`
(truthiness: absent, NaN and 0 prices all fail). -/
def marginEligible (r : HistoricalRecord) : Bool :=
  truthyNum r.boughtPrice && truthyNum r.soldPrice && decide (0 < qOf r.boughtPrice)

/-- Per-record margin percentage `(sold - bought) / bought * 100`. -/
def recordMargin (r : HistoricalRecord) : ℚ :=
  (qOf r.soldPrice - qOf r.boughtPrice) / qOf r.boughtPrice * 100

/-- `xs.reduce((a, b) => a + b, 0)`. -/
def ratSum (l : List ℚ) : ℚ := l.foldl (· + ·) 0

/-- Arithmetic mean via `reduce(...) / length`. -/
def listMean (l : List ℚ) : ℚ := ratSum l / (l.length : ℚ)

/-- The non-empty, non-missing year values of a group, deduplicated in
first-occurrence order (`[...new Set(group.map(r => r.year).filter(Boolean))]`). -/
def yearsOf (rs : List HistoricalRecord) : List String :=
  dedupFirst (rs.filterMap (fun r =>
    match r.year with
    | some s => if s = "" then none else some s
    | none => none))

/-- Aggregate one group; `none` when the group has no margin-eligible
record (such groups are skipped by the source's `if (margins.length > 0)`). -/
def mkAggregated (g : String × List HistoricalRecord) : Option AggregatedData :=
  let margins := (g.2.filter marginEligible).map recordMargin
  if 0 < margins.length then
    some { brandModel := g.1, count := g.2.length,
           avgMargin := listMean margins, years := yearsOf g.2 }
  else none

/-- Source `aggregateData`: group by brand+model, aggregate each group,
stable-sort descending by transaction count. -/
def aggregateData (records : List HistoricalRecord) : List AggregatedData :=
  let aggregated := (groupRecords records).filterMap mkAggregated
  sortDescKey (fun a => a.count) aggregated

/-! ## Insight composer -/

/-- A record whose brand AND model both case-insensitively equal the
target's (the composer's `exactMatches` filter). -/
def isExactMatch (targetCar : TargetVehicle) (r : HistoricalRecord) : Bool :=
  optLowerEq r.brand targetCar.brand && optLowerEq r.model targetCar.model

/-- The priority header line of the exact-match branch. -/
def priorityHeader (targetCar : TargetVehicle) : String :=
  "*** PRIORITY: YOUR PAST TRANSACTIONS FOR " ++ upperStr targetCar.brand ++
    " " ++ upperStr targetCar.model ++ " ***"

/-- One transaction line of the exact-match branch; emitted only when
both prices are truthy (`if (txn.boughtPrice && txn.soldPrice)`). -/
def txnLine (txn : HistoricalRecord) : Option String :=
  if truthyNum txn.boughtPrice && truthyNum txn.soldPrice then
    let margin := (qOf txn.soldPrice - qOf txn.boughtPrice) / qOf txn.boughtPrice * 100
    let dateStr := if truthyStr txn.date then "Date: " ++ interpStr txn.date else "Date: N/A"
    let modelStr := interpStr txn.brand ++ " " ++ interpStr txn.model
    let variantStr := if truthyStr txn.variant then " " ++ interpStr txn.variant else ""
    let yearStr := if truthyStr txn.year then " (" ++ interpStr txn.year ++ ")" else ""
    let buyLakhs := jsToFixed (qOf txn.boughtPrice / 100000) 2
    let sellLakhs := jsToFixed (qOf txn.soldPrice / 100000) 2
    some ("- " ++ dateStr ++ " | " ++ modelStr ++ variantStr ++ yearStr ++
      " | Bought: ₹" ++ buyLakhs ++ "L | Sold: ₹" ++ sellLakhs ++
      "L | Margin: " ++ jsToFixed margin 1 ++ "%")
  else none

/-- The trailing context line (pushed with its own leading newline). -/
def contextLine (total : Nat) : String :=
  "\nDatabase Context: " ++ toString total ++ " total records."

/-- The insight-composition body of `sanitizeHistoricalData`, taking the
already-parsed record list (the source code after its two early returns). -/
def buildInsights (allRecords : List HistoricalRecord) (targetCar : TargetVehicle) :
    ValuationInsight :=
  let relevantRecords := smartFilter allRecords targetCar 50
  let aggregated := aggregateData relevantRecords
  let exactMatches := relevantRecords.filter (isExactMatch targetCar)
  if 0 < exactMatches.length then
    let recentTxns := exactMatches.take 5
    let txnLines := recentTxns.filterMap txnLine
    let margins := (exactMatches.filter
      (fun r => truthyNum r.boughtPrice && truthyNum r.soldPrice)).map recordMargin
    let tail :=
      if 0 < margins.length then
        let avgMargin := listMean margins
        ([ "AVERAGE MARGIN for this model: " ++ jsToFixed avgMargin 1 ++ "% over " ++
             toString margins.length ++ " transactions." ],
         some { percentage := avgMargin,
                description := toString margins.length ++ " similar " ++
                  targetCar.brand ++ " " ++ targetCar.model ++ " transactions" })
      else ([], none)
    { insights := String.intercalate "\n"
        ([priorityHeader targetCar] ++ txnLines ++ tail.1 ++ [contextLine allRecords.length]),
      marginData := tail.2 }
  else
    let brandMatches := aggregated.filter
      (fun a => containsSubstrB (lowerStr a.brandModel) (lowerStr targetCar.brand))
    let marginData :=
      if 0 < brandMatches.length then
        let totalBrandTransactions : Nat :=
          brandMatches.foldl (fun sum a => sum + a.count) 0
        let totalMargin := brandMatches.foldl
          (fun sum a => sum + a.avgMargin * (a.count : ℚ)) (0 : ℚ)
        some { percentage := totalMargin / (totalBrandTransactions : ℚ),
               description := toString totalBrandTransactions ++ " " ++
                 targetCar.brand ++ " transactions (brand average)" }
      else none
    { insights := String.intercalate "\n"
        ([ "No exact past transactions for " ++ targetCar.brand ++ " " ++
             targetCar.model ++ "." ] ++ [contextLine allRecords.length]),
      marginData := marginData }

/-- Source `sanitizeHistoricalData`: early returns for empty input and
unparseable input, then the composition body. -/
def sanitizeHistoricalData (csvData : String) (targetCar : TargetVehicle) :
    ValuationInsight :=
  if jsTrim csvData = "" then
    { insights := "No historical data available.", marginData := none }
  else
    let allRecords := parseCSV csvData
    if allRecords.length = 0 then
      { insights := "No valid historical data found.", marginData := none }
    else buildInsights allRecords targetCar

/-! ## Sensitivity checker -/

/-- `.` of a JavaScript regex without the `s` flag: any character except
a line terminator. -/
def jsDotChar (c : Char) : Bool :=
  c ≠ '\n' && c ≠ '\r' && c.toNat ≠ 0x2028 && c.toNat ≠ 0x2029

/-- There is a digit reachable from here through non-terminator
characters (the `.*\d` tail of the source's keyword regexes). -/
def digitAfterDots : List Char → Bool
  | [] => false
  | c :: rest => if c.isDigit then true else if jsDotChar c then digitAfterDots rest else false

/-- `/kw.*\d+/i` applied to the text: some occurrence of `kw`
(case-insensitively) is followed, with no line terminator in between, by
a digit. -/
def kwThenDigit (kw : List Char) : List Char → Bool
  | [] => false
  | c :: rest =>
    (kw.isPrefixOf ((c :: rest).map Char.toLower) && digitAfterDots ((c :: rest).drop kw.length))
      || kwThenDigit kw rest

/-- `/\d{5,}/`: a run of five or more consecutive digits. -/
def hasDigitRun5 : List Char → Bool
  | [] => false
  | c :: rest => 5 ≤ ((c :: rest).takeWhile Char.isDigit).length || hasDigitRun5 rest

/-- Source `containsSensitiveData`: the disjunction of the five patterns. -/
def containsSensitiveData (text : String) : Bool :=
  hasDigitRun5 text.data
    || kwThenDigit "bought".data text.data
    || kwThenDigit "sold".data text.data
    || kwThenDigit "price".data text.data
    || kwThenDigit "margin".data text.data

/-- Source `estimateTokens`: `Math.ceil(text.length / 4)`. -/
def estimateTokens (text : String) : Nat := (text.length + 3) / 4

/-! ## Concrete scenario inputs -/

/-- The round-trip scenario ledger of the specification. -/
def sampleLedger : String :=
  "Brand,Model,Year,BoughtPrice,SoldPrice\nMaruti,Swift,2018,450000,520000\nMaruti,Swift,2019,400000,460000"

/-- The round-trip scenario target. -/
def sampleTarget : TargetVehicle := ⟨"Maruti", "Swift"⟩

/-! ## Supporting lemmas -/

theorem isPrefixOf_rfl (l : List Char) : l.isPrefixOf l = true := by
  induction l with
  | nil => rfl
  | cons c rest ih => simp [List.isPrefixOf, ih]

theorem occursIn_refl (l : List Char) : occursIn l l = true := by
  cases l with
  | nil => rfl
  | cons c rest => simp [occursIn, isPrefixOf_rfl]

/-- The condition of the source's partial-model-match branch: both model
fields truthy and one lowercased model contains the other. -/
def substringBonusCond (r : HistoricalRecord) (t : TargetVehicle) : Prop :=
  truthyStr r.model = true ∧ t.model ≠ "" ∧
    (containsSubstrB (lowerStr (interpStr r.model)) (lowerStr t.model) = true ∨
     containsSubstrB (lowerStr t.model) (lowerStr (interpStr r.model)) = true)

instance (r : HistoricalRecord) (t : TargetVehicle) : Decidable (substringBonusCond r t) := by
  unfold substringBonusCond; infer_instance

theorem lowerStr_eq_empty {s : String} (h : lowerStr s = "") : s = "" := by
  cases s with
  | mk data =>
    cases data with
    | nil => rfl
    | cons c cs =>
      have h2 := congrArg String.data h
      simp [lowerStr] at h2

theorem truthyStr_some_iff {s : String} : truthyStr (some s) = true ↔ s ≠ "" := by
  simp [truthyStr]

theorem substringBonus_of_exactModel (r : HistoricalRecord) (t : TargetVehicle)
    (hm : optLowerEq r.model t.model = true) (ht : truthyStr r.model = true) :
    substringBonusCond r t := by
  match h : r.model with
  | none => rw [h] at ht; exact absurd ht (by simp [truthyStr])
  | some s =>
    rw [h] at hm ht
    have hs : s ≠ "" := truthyStr_some_iff.mp ht
    simp only [optLowerEq] at hm
    rw [decide_eq_true_iff] at hm
    refine ⟨by rw [h]; exact ht, ?_, Or.inl ?_⟩
    · intro hT
      exact hs (lowerStr_eq_empty (by rw [hm, hT]; rfl))
    · simp only [h, interpStr, hm, containsSubstrB]
      exact occursIn_refl _

theorem calculateRelevance_characterization (r : HistoricalRecord) (t : TargetVehicle) :
    calculateRelevance r t =
      (if optLowerEq r.brand t.brand then 50 else 0) +
      (if optLowerEq r.model t.model then 100 else 0) +
      (if substringBonusCond r t then 75 else 0) := by
  simp only [calculateRelevance]
  by_cases h12 : truthyStr r.model = true ∧ ¬ t.model = ""
  · by_cases hd : (containsSubstrB (lowerStr (interpStr r.model)) (lowerStr t.model) = true ∨
        containsSubstrB (lowerStr t.model) (lowerStr (interpStr r.model)) = true)
    · have hs : substringBonusCond r t := ⟨h12.1, h12.2, hd⟩
      rw [if_pos h12, if_pos hd, if_pos hs]
      by_cases hb : optLowerEq r.brand t.brand = true <;>
        by_cases hm : optLowerEq r.model t.model = true <;> simp [hb, hm]
    · have hs : ¬ substringBonusCond r t := fun h => hd h.2.2
      rw [if_pos h12, if_neg hd, if_neg hs]
      by_cases hb : optLowerEq r.brand t.brand = true <;>
        by_cases hm : optLowerEq r.model t.model = true <;> simp [hb, hm]
  · have hs : ¬ substringBonusCond r t := fun h => h12 ⟨h.1, h.2.1⟩
    rw [if_neg h12, if_neg hs]
    by_cases hb : optLowerEq r.brand t.brand = true <;>
      by_cases hm : optLowerEq r.model t.model = true <;> simp [hb, hm]

/-! ## Claims -/

/-- **C1, corrected at this input.**  The claim's "mutually exclusive"
substring bonus fails on the code: a record matching the target brand and
model exactly scores 225 (50 + 100 + 75), not the claimed 150, because an
exact (nonempty) model also passes the substring test. -/
theorem claim_C1_counterexample :
    calculateRelevance { brand := some "Maruti", model := some "Swift" }
        ⟨"Maruti", "Swift"⟩ = 225 ∧
      ¬ calculateRelevance { brand := some "Maruti", model := some "Swift" }
        ⟨"Maruti", "Swift"⟩ = 150 := by
  constructor <;> decide

/-- **C1 (amended).**  The relevance score is the sum of +50 for exact
case-insensitive brand equality, +100 for exact model equality and +75
for the substring condition; the substring bonus is NOT exclusive with
the exact-model bonus (an exact nonempty model always earns it), so exact
brand + exact nonempty model scores 225, exact brand + exact empty model
150, exact brand + strict substring model 125, exact nonempty model alone
175, and every score lies in {0, 50, 75, 100, 125, 150, 175, 225}. -/
theorem claim_C1 (r : HistoricalRecord) (t : TargetVehicle) :
    calculateRelevance r t ∈ ({0, 50, 75, 100, 125, 150, 175, 225} : Finset ℕ) ∧
    (optLowerEq r.brand t.brand = true → optLowerEq r.model t.model = true →
      truthyStr r.model = true → calculateRelevance r t = 225) ∧
    (optLowerEq r.brand t.brand = true → optLowerEq r.model t.model = true →
      truthyStr r.model = false → calculateRelevance r t = 150) ∧
    (optLowerEq r.brand t.brand = true → optLowerEq r.model t.model = false →
      substringBonusCond r t → calculateRelevance r t = 125) ∧
    (optLowerEq r.brand t.brand = false → optLowerEq r.model t.model = true →
      truthyStr r.model = true → calculateRelevance r t = 175) ∧
    calculateRelevance r t =
      (if optLowerEq r.brand t.brand then 50 else 0) +
      (if optLowerEq r.model t.model then 100 else 0) +
      (if substringBonusCond r t then 75 else 0) := by
  have hc := calculateRelevance_characterization r t
  refine ⟨?_, ?_, ?_, ?_, ?_, hc⟩
  · rw [hc]
    by_cases hb : optLowerEq r.brand t.brand = true <;>
      by_cases hm : optLowerEq r.model t.model = true <;>
        by_cases hs : substringBonusCond r t <;>
          simp [hb, hm, hs]
  · intro hb hm ht
    rw [hc, if_pos hb, if_pos hm, if_pos (substringBonus_of_exactModel r t hm ht)]
  · intro hb hm ht
    have hs : ¬ substringBonusCond r t := fun h =>
      absurd (h.1.symm.trans ht) (by decide)
    rw [hc, if_pos hb, if_pos hm, if_neg hs]
  · intro hb hm hs
    rw [hc, if_pos hb, if_neg (by simp [hm]), if_pos hs]
  · intro hb hm ht
    rw [hc, if_neg (by simp [hb]), if_pos hm,
      if_pos (substringBonus_of_exactModel r t hm ht)]

/-- Witness for C1: the three substantive scenarios at concrete inputs —
exact brand+model 225, exact brand + strict substring model 125, exact
model alone 175. -/
theorem claim_C1_witness :
    calculateRelevance { brand := some "Maruti", model := some "Swift" }
        ⟨"Maruti", "Swift"⟩ = 225 ∧
    calculateRelevance { brand := some "Maruti", model := some "Swift LXI" }
        ⟨"Maruti", "Swift"⟩ = 125 ∧
    calculateRelevance { model := some "Swift" } ⟨"Honda", "Swift"⟩ = 175 :=
  ⟨(claim_C1 _ _).2.1 (by decide) (by decide) (by decide),
   (claim_C1 _ _).2.2.2.1 (by decide) (by decide) (by decide),
   (claim_C1 _ _).2.2.2.2.1 (by decide) (by decide) (by decide)⟩

/-- **C2 (confirmed).**  The round-trip scenario: two exact matches, the
margin summary is the mean of the two per-record margins (≈ 15.28), the
description is "2 similar Maruti Swift transactions", and the insights
contain the priority header and one line per transaction. -/
theorem claim_C2 :
    ((smartFilter (parseCSV sampleLedger) sampleTarget 50).filter
        (isExactMatch sampleTarget)).length = 2 ∧
    (sanitizeHistoricalData sampleLedger sampleTarget).marginData =
      some ⟨(((520000 : ℚ) - 450000) / 450000 * 100 +
             ((460000 : ℚ) - 400000) / 400000 * 100) / 2,
            "2 similar Maruti Swift transactions"⟩ ∧
    (∀ m ∈ (sanitizeHistoricalData sampleLedger sampleTarget).marginData,
      |m.percentage - 1528 / 100| < 1 / 100) ∧
    containsSubstrB (sanitizeHistoricalData sampleLedger sampleTarget).insights
      "*** PRIORITY: YOUR PAST TRANSACTIONS FOR MARUTI SWIFT ***" = true ∧
    containsSubstrB (sanitizeHistoricalData sampleLedger sampleTarget).insights
      "- Date: N/A | Maruti Swift (2018) | Bought: ₹4.50L | Sold: ₹5.20L | Margin: 15.6%" = true ∧
    containsSubstrB (sanitizeHistoricalData sampleLedger sampleTarget).insights
      "- Date: N/A | Maruti Swift (2019) | Bought: ₹4.00L | Sold: ₹4.60L | Margin: 15.0%" = true := by
  refine ⟨by decide, by decide, ?_, by decide, by decide, by decide⟩
  intro m hm
  have hmd : (sanitizeHistoricalData sampleLedger sampleTarget).marginData =
      some ⟨275 / 18, "2 similar Maruti Swift transactions"⟩ := by decide
  rw [Option.mem_def, hmd, Option.some_inj] at hm
  rw [← hm]
  decide

/-- **C9 (confirmed).**  The pipeline is a pure function of its two
inputs: identical inputs give identical `ValuationInsight` values.  (The
embedding is a total function; the source touches no state outside its
locals, which is what this determinism claim amounts to.) -/
theorem claim_C9 (csv₁ csv₂ : String) (t₁ t₂ : TargetVehicle)
    (hcsv : csv₁ = csv₂) (ht : t₁ = t₂) :
    sanitizeHistoricalData csv₁ t₁ = sanitizeHistoricalData csv₂ t₂ := by
  rw [hcsv, ht]

/-- Witness for C9 at the concrete scenario input. -/
theorem claim_C9_witness :
    sanitizeHistoricalData sampleLedger sampleTarget =
      sanitizeHistoricalData sampleLedger sampleTarget :=
  claim_C9 sampleLedger sampleLedger sampleTarget sampleTarget rfl rfl

/-! ## C8: sensitivity checker -/

/-- The claim's reading of the keyword patterns: the keyword occurrence is
followed *anywhere later in the string* by a digit (no line restriction). -/
def kwThenDigitAnywhere (kw : List Char) : List Char → Bool
  | [] => false
  | c :: rest =>
    (kw.isPrefixOf ((c :: rest).map Char.toLower) &&
      ((c :: rest).drop kw.length).any Char.isDigit)
      || kwThenDigitAnywhere kw rest

/-- The sensitivity predicate exactly as the claim words it: a 5-digit
run, or a keyword followed later in the string by at least one digit. -/
def claimSensitiveAnywhere (text : String) : Bool :=
  hasDigitRun5 text.data
    || kwThenDigitAnywhere "bought".data text.data
    || kwThenDigitAnywhere "sold".data text.data
    || kwThenDigitAnywhere "price".data text.data
    || kwThenDigitAnywhere "margin".data text.data

theorem isPrefixOf_map_toLower_iff (kw : List Char) : ∀ (cs : List Char),
    kw.isPrefixOf (cs.map Char.toLower) = true ↔
      ∃ seg tail, cs = seg ++ tail ∧ seg.map Char.toLower = kw := by
  induction kw with
  | nil =>
    intro cs
    simp only [List.isPrefixOf, true_iff]
    exact ⟨[], cs, rfl, rfl⟩
  | cons k kw ih =>
    intro cs
    cases cs with
    | nil =>
      simp only [List.map_nil, List.isPrefixOf, Bool.false_eq_true, false_iff]
      rintro ⟨seg, tail, hcs, hmap⟩
      rcases List.append_eq_nil.mp hcs.symm with ⟨rfl, -⟩
      simp at hmap
    | cons c cs =>
      simp only [List.map_cons, List.isPrefixOf, Bool.and_eq_true, beq_iff_eq]
      constructor
      · rintro ⟨hk, hp⟩
        obtain ⟨seg, tail, hcs, hmap⟩ := (ih cs).mp hp
        exact ⟨c :: seg, tail, by rw [List.cons_append, ← hcs],
          by simp [hmap, hk]⟩
      · rintro ⟨seg, tail, hcs, hmap⟩
        cases seg with
        | nil => simp at hmap
        | cons s seg =>
          rw [List.cons_append] at hcs
          injection hcs with h1 h2
          rw [List.map_cons] at hmap
          injection hmap with h3 h4
          subst h1
          exact ⟨h3.symm, (ih cs).mpr ⟨seg, tail, h2, h4⟩⟩

theorem digitAfterDots_iff : ∀ (cs : List Char),
    digitAfterDots cs = true ↔
      ∃ mid d l₂, cs = mid ++ d :: l₂ ∧ (∀ c ∈ mid, jsDotChar c = true) ∧
        d.isDigit = true := by
  intro cs
  induction cs with
  | nil =>
    simp only [digitAfterDots, Bool.false_eq_true, false_iff]
    rintro ⟨mid, d, l₂, hcs, -, -⟩
    exact absurd hcs (by simp)
  | cons c rest ih =>
    simp only [digitAfterDots]
    by_cases hd : c.isDigit = true
    · simp only [hd, if_true, true_iff]
      exact ⟨[], c, rest, rfl, by simp, hd⟩
    · rw [if_neg hd]
      by_cases hj : jsDotChar c = true
      · rw [if_pos hj, ih]
        constructor
        · rintro ⟨mid, d, l₂, hcs, hmid, hdig⟩
          refine ⟨c :: mid, d, l₂, by rw [hcs]; rfl, ?_, hdig⟩
          intro x hx
          rcases List.mem_cons.mp hx with rfl | hx
          · exact hj
          · exact hmid x hx
        · rintro ⟨mid, d, l₂, hcs, hmid, hdig⟩
          cases mid with
          | nil =>
            injection hcs with h1 h2
            exact absurd (h1 ▸ hdig) hd
          | cons m mid =>
            rw [List.cons_append] at hcs
            injection hcs with h1 h2
            exact ⟨mid, d, l₂, h2, fun x hx => hmid x (List.mem_cons_of_mem _ hx), hdig⟩
      · rw [if_neg hj]
        simp only [Bool.false_eq_true, false_iff]
        rintro ⟨mid, d, l₂, hcs, hmid, hdig⟩
        cases mid with
        | nil =>
          injection hcs with h1 h2
          exact absurd (h1 ▸ hdig) hd
        | cons m mid =>
          rw [List.cons_append] at hcs
          injection hcs with h1 h2
          exact hj (h1 ▸ hmid m (List.mem_cons_self _ _))

theorem kwThenDigit_iff (kw : List Char) : ∀ (cs : List Char),
    kwThenDigit kw cs = true ↔
      ∃ l₁ seg tail, cs = l₁ ++ seg ++ tail ∧ seg.map Char.toLower = kw ∧
        digitAfterDots tail = true := by
  intro cs
  induction cs with
  | nil =>
    simp only [kwThenDigit, Bool.false_eq_true, false_iff]
    rintro ⟨l₁, seg, tail, hcs, -, hdig⟩
    rcases List.append_eq_nil.mp hcs.symm with ⟨-, rfl⟩
    simp [digitAfterDots] at hdig
  | cons c rest ih =>
    simp only [kwThenDigit, Bool.or_eq_true, Bool.and_eq_true]
    constructor
    · rintro (⟨hp, hdig⟩ | h)
      · obtain ⟨seg, tail, hcs, hmap⟩ := (isPrefixOf_map_toLower_iff kw _).mp hp
        refine ⟨[], seg, tail, by simpa using hcs, hmap, ?_⟩
        have hlen : kw.length = seg.length := by
          rw [← hmap, List.length_map]
        rw [hcs, hlen, List.drop_left] at hdig
        exact hdig
      · obtain ⟨l₁, seg, tail, hcs, hmap, hdig⟩ := ih.mp h
        exact ⟨c :: l₁, seg, tail, by rw [hcs]; rfl, hmap, hdig⟩
    · rintro ⟨l₁, seg, tail, hcs, hmap, hdig⟩
      cases l₁ with
      | nil =>
        left
        simp only [List.nil_append] at hcs
        constructor
        · exact (isPrefixOf_map_toLower_iff kw _).mpr ⟨seg, tail, hcs, hmap⟩
        · have hlen : kw.length = seg.length := by
            rw [← hmap, List.length_map]
          rw [hcs, hlen, List.drop_left]
          exact hdig
      | cons x l₁ =>
        right
        rw [List.cons_append, List.cons_append] at hcs
        injection hcs with h1 h2
        exact ih.mpr ⟨l₁, seg, tail, h2, hmap, hdig⟩

theorem takeWhile_append_of_all {p : Char → Bool} {l₁ : List Char}
    (h : ∀ c ∈ l₁, p c = true) (l₂ : List Char) :
    (l₁ ++ l₂).takeWhile p = l₁ ++ l₂.takeWhile p := by
  induction l₁ with
  | nil => rfl
  | cons c l₁ ih =>
    rw [List.cons_append, List.takeWhile_cons, if_pos (h c (by simp)),
      ih (fun x hx => h x (by simp [hx])), List.cons_append]

theorem hasDigitRun5_iff : ∀ (cs : List Char),
    hasDigitRun5 cs = true ↔
      ∃ l₁ run l₂, cs = l₁ ++ run ++ l₂ ∧ run.length = 5 ∧
        ∀ c ∈ run, c.isDigit = true := by
  intro cs
  induction cs with
  | nil =>
    simp only [hasDigitRun5, Bool.false_eq_true, false_iff]
    rintro ⟨l₁, run, l₂, hcs, hlen, -⟩
    have := congrArg List.length hcs
    simp only [List.length_nil, List.length_append, hlen] at this
    omega
  | cons c rest ih =>
    simp only [hasDigitRun5, Bool.or_eq_true, decide_eq_true_eq]
    constructor
    · rintro (h | h)
      · refine ⟨[], ((c :: rest).takeWhile Char.isDigit).take 5,
          (((c :: rest).takeWhile Char.isDigit).drop 5) ++ (c :: rest).dropWhile Char.isDigit,
          ?_, by rw [List.length_take]; omega, ?_⟩
        · rw [List.nil_append, ← List.append_assoc, List.take_append_drop,
            List.takeWhile_append_dropWhile]
        · intro x hx
          exact List.mem_takeWhile_imp (List.mem_of_mem_take hx)
      · obtain ⟨l₁, run, l₂, hcs, hlen, hdig⟩ := ih.mp h
        exact ⟨c :: l₁, run, l₂, by rw [hcs]; rfl, hlen, hdig⟩
    · rintro ⟨l₁, run, l₂, hcs, hlen, hdig⟩
      cases l₁ with
      | nil =>
        left
        simp only [List.nil_append] at hcs
        rw [hcs, takeWhile_append_of_all hdig]
        rw [List.length_append, hlen]
        omega
      | cons x l₁ =>
        right
        rw [List.cons_append, List.cons_append] at hcs
        injection hcs with h1 h2
        exact ih.mpr ⟨l₁, run, l₂, h2, hlen, hdig⟩

/-- The code's actual sensitivity criterion, stated declaratively: a run
of five consecutive digits, or a keyword occurrence followed by a digit
with only non-line-terminator characters in between (JavaScript regex `.`
does not cross line terminators). -/
def SensitiveSpec (text : String) : Prop :=
  (∃ l₁ run l₂, text.data = l₁ ++ run ++ l₂ ∧ run.length = 5 ∧
    ∀ c ∈ run, c.isDigit = true) ∨
  (∃ kw ∈ (["bought", "sold", "price", "margin"] : List String),
    ∃ l₁ seg mid d l₂, text.data = l₁ ++ seg ++ (mid ++ d :: l₂) ∧
      seg.map Char.toLower = kw.data ∧ (∀ c ∈ mid, jsDotChar c = true) ∧
      d.isDigit = true)

/-- **C8, corrected at this input.**  On `"bought\n5"` the claim's
"followed later in the string by at least one digit" reading demands
`true`, but the code's regex `.` does not match the newline, so
`containsSensitiveData` returns `false`. -/
theorem claim_C8_counterexample :
    containsSensitiveData "bought\n5" = false ∧
      claimSensitiveAnywhere "bought\n5" = true := by
  constructor <;> decide

/-- **C8 (amended).**  `containsSensitiveData` returns true iff the text
has a run of 5+ consecutive digits, or one of the case-insensitive
keywords "bought"/"sold"/"price"/"margin" followed by a digit with no
line terminator in between; in particular it is true on
"bought for 450000" and false on "This car has good mileage". -/
theorem claim_C8 (text : String) :
    (containsSensitiveData text = true ↔ SensitiveSpec text) ∧
    containsSensitiveData "bought for 450000" = true ∧
    containsSensitiveData "This car has good mileage" = false := by
  refine ⟨?_, by decide, by decide⟩
  constructor
  · intro h
    simp only [containsSensitiveData, Bool.or_eq_true] at h
    rcases h with ((((h | h) | h) | h) | h)
    · exact Or.inl ((hasDigitRun5_iff _).mp h)
    all_goals {
      right
      obtain ⟨l₁, seg, tail, hcs, hmap, hdig⟩ := (kwThenDigit_iff _ _).mp h
      obtain ⟨mid, d, l₂, htail, hmid, hd⟩ := (digitAfterDots_iff _).mp hdig
      first
      | exact ⟨"bought", by simp, l₁, seg, mid, d, l₂, by rw [hcs, htail], hmap, hmid, hd⟩
      | exact ⟨"sold", by simp, l₁, seg, mid, d, l₂, by rw [hcs, htail], hmap, hmid, hd⟩
      | exact ⟨"price", by simp, l₁, seg, mid, d, l₂, by rw [hcs, htail], hmap, hmid, hd⟩
      | exact ⟨"margin", by simp, l₁, seg, mid, d, l₂, by rw [hcs, htail], hmap, hmid, hd⟩
    }
  · intro h
    simp only [containsSensitiveData, Bool.or_eq_true]
    rcases h with h | ⟨kw, hkw, l₁, seg, mid, d, l₂, hcs, hmap, hmid, hd⟩
    · exact Or.inl (Or.inl (Or.inl (Or.inl ((hasDigitRun5_iff _).mpr h))))
    · have hk : kwThenDigit kw.data text.data = true :=
        (kwThenDigit_iff _ _).mpr ⟨l₁, seg, mid ++ d :: l₂, hcs, hmap,
          (digitAfterDots_iff _).mpr ⟨mid, d, l₂, rfl, hmid, hd⟩⟩
      fin_cases hkw
      · exact Or.inl (Or.inl (Or.inl (Or.inr hk)))
      · exact Or.inl (Or.inl (Or.inr hk))
      · exact Or.inl (Or.inr hk)
      · exact Or.inr hk

/-- Witness for C8: the iff instantiated both ways at concrete texts. -/
theorem claim_C8_witness :
    SensitiveSpec "price is 5" ∧ containsSensitiveData "margin data here" = false :=
  ⟨(claim_C8 "price is 5").1.mp (by decide),
   by
    have h := (claim_C8 "margin data here").1
    cases hb : containsSensitiveData "margin data here" with
    | false => rfl
    | true =>
      exact absurd (h.mp hb) (by
        rintro (⟨l₁, run, l₂, hcs, hlen, hdig⟩ | ⟨kw, hkw, l₁, seg, mid, d, l₂, hcs, hmap, hmid, hd⟩)
        · revert hcs
          have : claimSensitiveAnywhere "margin data here" = false := by decide
          intro hcs
          have h5 : hasDigitRun5 "margin data here".data = true :=
            (hasDigitRun5_iff _).mpr ⟨l₁, run, l₂, hcs, hlen, hdig⟩
          simp [claimSensitiveAnywhere, h5] at this
        · have hk : kwThenDigit kw.data "margin data here".data = true :=
            (kwThenDigit_iff _ _).mpr ⟨l₁, seg, mid ++ d :: l₂, hcs, hmap,
              (digitAfterDots_iff _).mpr ⟨mid, d, l₂, rfl, hmid, hd⟩⟩
          have hall : containsSensitiveData "margin data here" = false := by decide
          fin_cases hkw <;> simp [containsSensitiveData, hk] at hall)⟩

/-! ## C7: graceful degradation on near-empty input -/

theorem splitOnChar_ne_nil (c : Char) (cs : List Char) : splitOnChar c cs ≠ [] := by
  cases cs with
  | nil => simp [splitOnChar]
  | cons x xs =>
    simp only [splitOnChar]
    split
    · simp
    · split <;> simp

theorem not_mem_of_mem_splitOnChar (c : Char) :
    ∀ (cs : List Char), ∀ l ∈ splitOnChar c cs, c ∉ l := by
  intro cs
  induction cs with
  | nil =>
    intro l hl
    simp only [splitOnChar, List.mem_singleton] at hl
    simp [hl]
  | cons x xs ih =>
    intro l hl
    simp only [splitOnChar] at hl
    by_cases hx : x = c
    · rw [if_pos hx] at hl
      rcases List.mem_cons.mp hl with rfl | hl
      · simp
      · exact ih l hl
    · rw [if_neg hx] at hl
      cases hsp : splitOnChar c xs with
      | nil => exact absurd hsp (splitOnChar_ne_nil c xs)
      | cons l' ls =>
        rw [hsp] at hl
        rcases List.mem_cons.mp hl with rfl | hl
        · intro hc
          rcases List.mem_cons.mp hc with rfl | hc
          · exact hx rfl
          · exact ih l' (hsp ▸ List.mem_cons_self _ _) hc
        · exact ih l (hsp ▸ List.mem_cons_of_mem _ hl)

theorem length_splitOnChar (c : Char) :
    ∀ (cs : List Char), (splitOnChar c cs).length = cs.count c + 1 := by
  intro cs
  induction cs with
  | nil => simp [splitOnChar]
  | cons x xs ih =>
    simp only [splitOnChar]
    by_cases hx : x = c
    · rw [if_pos hx, hx]
      simp [ih, List.count_cons_self]
    · rw [if_neg hx]
      cases hsp : splitOnChar c xs with
      | nil => exact absurd hsp (splitOnChar_ne_nil c xs)
      | cons l' ls =>
        rw [hsp] at ih
        simp only [List.length_cons] at ih ⊢
        rw [List.count_cons_of_ne (fun h => hx h.symm)]
        exact ih

theorem allTailNil_shape (c : Char) :
    ∀ (cs : List Char) (h : List Char) (t : List (List Char)),
      splitOnChar c cs = h :: t → (∀ l ∈ t, l = []) →
      cs = h ++ List.replicate t.length c := by
  intro cs
  induction cs with
  | nil =>
    intro h t heq hall
    simp only [splitOnChar] at heq
    injection heq with h1 h2
    simp [← h1, ← h2]
  | cons x xs ih =>
    intro h t heq hall
    simp only [splitOnChar] at heq
    by_cases hx : x = c
    · rw [if_pos hx] at heq
      injection heq with h1 h2
      cases hsp : splitOnChar c xs with
      | nil => exact absurd hsp (splitOnChar_ne_nil c xs)
      | cons l' ls =>
        rw [hsp] at h2
        have hl' : l' = [] := hall l' (h2 ▸ List.mem_cons_self _ _)
        have := ih l' ls hsp (fun l hl => hall l (h2 ▸ List.mem_cons_of_mem _ hl))
        rw [← h1, ← h2, hx, this, hl']
        simp [List.replicate_succ]
    · rw [if_neg hx] at heq
      cases hsp : splitOnChar c xs with
      | nil => exact absurd hsp (splitOnChar_ne_nil c xs)
      | cons l' ls =>
        rw [hsp] at heq
        injection heq with h1 h2
        have := ih l' ls hsp (fun l hl => hall l (h2 ▸ hl))
        rw [← h1, ← h2, this]
        rfl

theorem shape_of_le_one :
    ∀ (cs : List Char),
      ((splitOnChar '\n' cs).filter (fun l => !l.isEmpty)).length ≤ 1 →
      ∃ a m b, cs = List.replicate a '\n' ++ m ++ List.replicate b '\n' ∧
        '\n' ∉ m := by
  intro cs
  induction cs with
  | nil => exact fun _ => ⟨0, [], 0, rfl, by simp⟩
  | cons x xs ih =>
    intro h
    by_cases hx : x = '\n'
    · subst hx
      rw [show splitOnChar '\n' ('\n' :: xs) = [] :: splitOnChar '\n' xs from by
          simp [splitOnChar],
        List.filter_cons_of_neg (by simp)] at h
      obtain ⟨a, m, b, heq, hm⟩ := ih h
      exact ⟨a + 1, m, b, by rw [heq, List.replicate_succ]; rfl, hm⟩
    · simp only [splitOnChar, if_neg hx] at h
      cases hsp : splitOnChar '\n' xs with
      | nil => exact absurd hsp (splitOnChar_ne_nil '\n' xs)
      | cons l' ls =>
        rw [hsp] at h
        rw [List.filter_cons_of_pos (by simp)] at h
        simp only [List.length_cons] at h
        have hlen0 : (List.filter (fun l => !l.isEmpty) ls).length = 0 := by omega
        have hnil := List.length_eq_zero.mp hlen0
        have hall : ∀ l ∈ ls, l = [] := by
          intro l hl
          have := List.filter_eq_nil_iff.mp hnil l hl
          simpa using this
        have hxs := allTailNil_shape '\n' xs l' ls hsp hall
        refine ⟨0, x :: l', ls.length, by rw [hxs]; rfl, ?_⟩
        intro hc
        rcases List.mem_cons.mp hc with rfl | hc
        · exact hx rfl
        · exact not_mem_of_mem_splitOnChar '\n' xs l'
            (hsp ▸ List.mem_cons_self _ _) hc

theorem dropWhile_append_of_forall {p : Char → Bool} :
    ∀ {l₁ : List Char}, (∀ x ∈ l₁, p x = true) → ∀ (l₂ : List Char),
      (l₁ ++ l₂).dropWhile p = l₂.dropWhile p := by
  intro l₁
  induction l₁ with
  | nil => intro _ l₂; rfl
  | cons c l₁ ih =>
    intro h l₂
    rw [List.cons_append, List.dropWhile_cons, if_pos (h c (by simp))]
    exact ih (fun x hx => h x (List.mem_cons_of_mem _ hx)) l₂

theorem dropWhile_append_of_ne {p : Char → Bool} :
    ∀ {l₁ : List Char}, l₁.dropWhile p ≠ [] → ∀ (l₂ : List Char),
      (l₁ ++ l₂).dropWhile p = l₁.dropWhile p ++ l₂ := by
  intro l₁
  induction l₁ with
  | nil => intro h; exact absurd rfl h
  | cons c l₁ ih =>
    intro h l₂
    by_cases hc : p c = true
    · rw [List.dropWhile_cons, if_pos hc] at h
      rw [List.cons_append, List.dropWhile_cons, if_pos hc, ih h,
        List.dropWhile_cons, if_pos hc]
    · rw [List.cons_append, List.dropWhile_cons, if_neg hc,
        List.dropWhile_cons, if_neg hc, List.cons_append]

theorem not_mem_trimChars {a b : ℕ} {m : List Char} (hm : '\n' ∉ m) :
    '\n' ∉ trimChars (List.replicate a '\n' ++ m ++ List.replicate b '\n') := by
  unfold trimChars
  have hws : ∀ x ∈ List.replicate a '\n', Char.isWhitespace x = true := by
    intro x hx
    rw [List.eq_of_mem_replicate hx]
    decide
  have hws' : ∀ x ∈ List.replicate b '\n', Char.isWhitespace x = true := by
    intro x hx
    rw [List.eq_of_mem_replicate hx]
    decide
  rw [List.append_assoc, dropWhile_append_of_forall hws]
  by_cases h1 : m.dropWhile Char.isWhitespace = []
  · rw [dropWhile_append_of_forall (fun x hx => List.dropWhile_eq_nil_iff.mp h1 x hx),
      List.dropWhile_eq_nil_iff.mpr hws' ]
    simp
  · rw [dropWhile_append_of_ne h1]
    have hm' : '\n' ∉ m.dropWhile Char.isWhitespace :=
      fun hc => hm ((List.dropWhile_sublist _).subset hc)
    rw [List.reverse_append, List.reverse_replicate,
      dropWhile_append_of_forall hws']
    intro hc
    rw [List.mem_reverse] at hc
    exact hm' (by
      have := (List.dropWhile_sublist _).subset hc
      rwa [List.mem_reverse] at this)

theorem jsTrim_eq_empty_iff {s : String} : jsTrim s = "" ↔ trimChars s.data = [] := by
  constructor
  · intro h
    have := congrArg String.data h
    simpa [jsTrim] using this
  · intro h
    rw [jsTrim, h]

/-- **C7 (confirmed).**  Inputs with fewer than two non-empty lines parse
to the empty record sequence; empty or whitespace-only input yields
"No historical data available." with null margin data, and any other
input whose parse is empty (e.g. header-only) yields
"No valid historical data found." with null margin data.  The embedding
is total, so no input raises. -/
theorem claim_C7 (csv : String) (t : TargetVehicle) :
    (((splitOnChar '\n' csv.data).filter (fun l => !l.isEmpty)).length < 2 →
      parseCSV csv = []) ∧
    (jsTrim csv = "" →
      sanitizeHistoricalData csv t = ⟨"No historical data available.", none⟩) ∧
    (jsTrim csv ≠ "" → parseCSV csv = [] →
      sanitizeHistoricalData csv t = ⟨"No valid historical data found.", none⟩) := by
  refine ⟨?_, ?_, ?_⟩
  · intro hlt
    by_cases h0 : jsTrim csv = ""
    · rw [parseCSV, if_pos h0]
    · obtain ⟨a, m, b, heq, hm⟩ := shape_of_le_one csv.data (Nat.lt_succ_iff.mp hlt)
      have hnl : '\n' ∉ trimChars csv.data := by
        rw [heq]; exact not_mem_trimChars hm
      have hlen : (splitOnChar '\n' (trimChars csv.data)).length = 1 := by
        rw [length_splitOnChar, List.count_eq_zero.mpr hnl]
      rw [parseCSV, if_neg h0]
      simp only [hlen]
      rw [if_pos (by omega)]
  · intro h0
    rw [sanitizeHistoricalData, if_pos h0]
  · intro h0 hp
    rw [sanitizeHistoricalData, if_neg h0]
    simp [hp]

/-- Witness for C7: the three branches at concrete inputs — whitespace
input, empty input, and a header-only ledger. -/
theorem claim_C7_witness :
    parseCSV "Brand,Model" = [] ∧
    sanitizeHistoricalData "  \n " ⟨"Maruti", "Swift"⟩ =
      ⟨"No historical data available.", none⟩ ∧
    sanitizeHistoricalData "Brand,Model" ⟨"Maruti", "Swift"⟩ =
      ⟨"No valid historical data found.", none⟩ :=
  ⟨(claim_C7 "Brand,Model" ⟨"Maruti", "Swift"⟩).1 (by decide),
   (claim_C7 "  \n " ⟨"Maruti", "Swift"⟩).2.1 (by decide),
   (claim_C7 "Brand,Model" ⟨"Maruti", "Swift"⟩).2.2 (by decide) (by decide)⟩

open List

/-! ## C6: Top-K selector -/

theorem insertDescKey_perm {α : Type} (f : α → Nat) (x : α) :
    ∀ (l : List α), insertDescKey f x l ~ x :: l := by
  intro l
  induction l with
  | nil => rfl
  | cons y ys ih =>
    rw [insertDescKey]
    by_cases h : f x < f y
    · rw [if_pos h]
      exact (ih.cons y).trans (List.Perm.swap x y ys)
    · rw [if_neg h]

theorem sortDescKey_perm {α : Type} (f : α → Nat) :
    ∀ (l : List α), sortDescKey f l ~ l := by
  intro l
  induction l with
  | nil => rfl
  | cons x xs ih =>
    rw [sortDescKey]
    exact (insertDescKey_perm f x (sortDescKey f xs)).trans (ih.cons x)

theorem mem_insertDescKey {α : Type} {f : α → Nat} {x a : α} {l : List α} :
    a ∈ insertDescKey f x l ↔ a = x ∨ a ∈ l := by
  rw [(insertDescKey_perm f x l).mem_iff, List.mem_cons]

theorem pairwise_insertDescKey {α : Type} {f : α → Nat} {x : α} :
    ∀ {l : List α}, List.Pairwise (fun a b => f b ≤ f a) l →
      List.Pairwise (fun a b => f b ≤ f a) (insertDescKey f x l) := by
  intro l
  induction l with
  | nil => intro _; exact List.pairwise_singleton _ x
  | cons y ys ih =>
    intro hp
    rw [List.pairwise_cons] at hp
    rw [insertDescKey]
    by_cases h : f x < f y
    · rw [if_pos h]
      rw [List.pairwise_cons]
      refine ⟨?_, ih hp.2⟩
      intro a ha
      rcases mem_insertDescKey.mp ha with rfl | ha
      · exact Nat.le_of_lt h
      · exact hp.1 a ha
    · rw [if_neg h]
      rw [List.pairwise_cons]
      refine ⟨?_, List.pairwise_cons.mpr hp⟩
      intro a ha
      rcases List.mem_cons.mp ha with rfl | ha
      · exact Nat.le_of_not_lt h
      · exact Nat.le_trans (hp.1 a ha) (Nat.le_of_not_lt h)

theorem pairwise_sortDescKey {α : Type} (f : α → Nat) :
    ∀ (l : List α), List.Pairwise (fun a b => f b ≤ f a) (sortDescKey f l) := by
  intro l
  induction l with
  | nil => exact List.Pairwise.nil
  | cons x xs ih =>
    rw [sortDescKey]
    exact pairwise_insertDescKey ih

theorem filter_insertDescKey_key_pos {α : Type} {f : α → Nat} {x : α} {s : Nat}
    (hx : f x = s) :
    ∀ (l : List α), (insertDescKey f x l).filter (fun a => f a == s) =
      x :: l.filter (fun a => f a == s) := by
  intro l
  induction l with
  | nil => simp [insertDescKey, hx]
  | cons y ys ih =>
    rw [insertDescKey]
    by_cases h : f x < f y
    · rw [if_pos h]
      have hy : (f y == s) = false := by
        rw [beq_eq_false_iff_ne]
        omega
      rw [List.filter_cons_of_neg (by simp [hy]), ih,
        List.filter_cons_of_neg (by simp [hy])]
    · rw [if_neg h, List.filter_cons_of_pos (by simp [hx])]

theorem filter_insertDescKey_key_neg {α : Type} {f : α → Nat} {x : α} {s : Nat}
    (hx : f x ≠ s) :
    ∀ (l : List α), (insertDescKey f x l).filter (fun a => f a == s) =
      l.filter (fun a => f a == s) := by
  intro l
  induction l with
  | nil => simp [insertDescKey, hx]
  | cons y ys ih =>
    rw [insertDescKey]
    by_cases h : f x < f y
    · rw [if_pos h]
      by_cases hy : f y = s
      · rw [List.filter_cons_of_pos (by simp [hy]), ih,
          List.filter_cons_of_pos (by simp [hy])]
      · rw [List.filter_cons_of_neg (by simp [hy]), ih,
          List.filter_cons_of_neg (by simp [hy])]
    · rw [if_neg h, List.filter_cons_of_neg (by simp [hx])]

theorem filter_sortDescKey_key {α : Type} (f : α → Nat) (s : Nat) :
    ∀ (l : List α), (sortDescKey f l).filter (fun a => f a == s) =
      l.filter (fun a => f a == s) := by
  intro l
  induction l with
  | nil => rfl
  | cons x xs ih =>
    rw [sortDescKey]
    by_cases hx : f x = s
    · rw [filter_insertDescKey_key_pos hx, ih,
        List.filter_cons_of_pos (by simp [hx])]
    · rw [filter_insertDescKey_key_neg hx, ih,
        List.filter_cons_of_neg (by simp [hx])]

theorem take_isPre {α : Type} (k : Nat) (l : List α) : l.take k <+: l :=
  ⟨l.drop k, List.take_append_drop k l⟩

/-- Records used by the C6 counterexample. -/
def brandOnlyRecord : HistoricalRecord := { brand := some "Maruti" }

/-- Records used by the C6 counterexample. -/
def exactRecord : HistoricalRecord := { brand := some "Maruti", model := some "Swift" }

/-- **C6, corrected at this input.**  The selector's output is not in
general a subsequence of the input: sorting by descending score moves the
high-score record in front of an earlier low-score one. -/
theorem claim_C6_counterexample :
    smartFilter [brandOnlyRecord, exactRecord] ⟨"Maruti", "Swift"⟩ 50 =
      [exactRecord, brandOnlyRecord] ∧
    ¬ (smartFilter [brandOnlyRecord, exactRecord] ⟨"Maruti", "Swift"⟩ 50 <+
      [brandOnlyRecord, exactRecord]) := by
  refine ⟨by decide, ?_⟩
  intro h
  have heq := h.eq_of_length (by decide)
  exact absurd heq (by decide)

/-- **C6 (amended).**  The selector's output is a permutation of a
subsequence of the input (not a subsequence: descending-score sorting
reorders records), has length at most `maxRecords`, contains no
zero-score record, is ordered by non-increasing score, and equal-score
records keep their original relative order: for every score value the
equal-score subsequence of the output is a prefix of the corresponding
subsequence of the input. -/
theorem claim_C6 (records : List HistoricalRecord) (t : TargetVehicle) (k : Nat) :
    (smartFilter records t k).length ≤ k ∧
    (∀ r ∈ smartFilter records t k, calculateRelevance r t ≠ 0) ∧
    List.Pairwise (fun a b => calculateRelevance b t ≤ calculateRelevance a t)
      (smartFilter records t k) ∧
    smartFilter records t k <+~ records ∧
    (∀ s : Nat, (smartFilter records t k).filter
        (fun r => calculateRelevance r t == s) <+:
      records.filter (fun r => calculateRelevance r t == s)) := by
  simp only [smartFilter]
  set g : HistoricalRecord → HistoricalRecord × Nat :=
    fun r => (r, calculateRelevance r t) with hg
  set L := records.map g with hL
  set F := L.filter (fun item => 0 < item.2) with hF
  set S := sortDescKey (fun item => item.2) F with hS
  have hmemS : ∀ p ∈ S, p.2 = calculateRelevance p.1 t ∧ 0 < p.2 := by
    intro p hp
    have hpF : p ∈ F := ((sortDescKey_perm _ F).mem_iff).mp hp
    rw [hF, List.mem_filter] at hpF
    obtain ⟨hpL, hpos⟩ := hpF
    rw [hL, List.mem_map] at hpL
    obtain ⟨r, _, hr⟩ := hpL
    rw [hg] at hr
    constructor
    · rw [← hr]
    · exact of_decide_eq_true hpos
  refine ⟨?_, ?_, ?_, ?_, ?_⟩
  · rw [List.length_map, List.length_take]
    omega
  · intro r hr
    rw [List.mem_map] at hr
    obtain ⟨p, hp, rfl⟩ := hr
    have hpS : p ∈ S := (List.take_sublist k S).subset hp
    obtain ⟨h1, h2⟩ := hmemS p hpS
    omega
  · rw [List.pairwise_map]
    have hpS : List.Pairwise (fun a b => b.2 ≤ a.2) S :=
      pairwise_sortDescKey (fun item => item.2) F
    have hpT : List.Pairwise (fun a b => b.2 ≤ a.2) (S.take k) :=
      hpS.sublist (List.take_sublist k S)
    refine List.Pairwise.imp_of_mem ?_ hpT
    intro a b ha hb hab
    have haS := hmemS a ((List.take_sublist k S).subset ha)
    have hbS := hmemS b ((List.take_sublist k S).subset hb)
    rw [← haS.1, ← hbS.1]
    exact hab
  · have h1 : S.take k <+~ L :=
      ((List.take_sublist k S).subperm.trans
        (sortDescKey_perm _ F).subperm).trans (List.filter_sublist L).subperm
    obtain ⟨l', hl'perm, hl'sub⟩ := h1
    refine ⟨l'.map Prod.fst, hl'perm.map Prod.fst, ?_⟩
    have := hl'sub.map Prod.fst
    rw [hL, List.map_map] at this
    have hid : (Prod.fst ∘ fun r : HistoricalRecord => (r, calculateRelevance r t)) = id := by
      funext r; rfl
    rw [hg, hid, List.map_id] at this
    exact this
  · intro s
    have hcongr : (S.take k).filter (fun p => calculateRelevance p.1 t == s) =
        (S.take k).filter (fun p => p.2 == s) := by
      refine List.filter_congr ?_
      intro p hp
      rw [(hmemS p ((List.take_sublist k S).subset hp)).1]
    rw [List.filter_map, Function.comp_def, hcongr]
    have hstep : (S.take k).filter (fun p => p.2 == s) <+:
        S.filter (fun p => p.2 == s) :=
      (take_isPre k S).filter _
    by_cases hs : s = 0
    · have : (S.take k).filter (fun p => p.2 == s) = [] := by
        rw [List.filter_eq_nil_iff]
        intro p hp
        have := (hmemS p ((List.take_sublist k S).subset hp)).2
        simp [hs]
        omega
      rw [this]
      simp only [List.map_nil]
      exact List.nil_prefix
    · have hSF : S.filter (fun p => p.2 == s) = F.filter (fun p => p.2 == s) :=
        filter_sortDescKey_key _ s F
      have hFL : F.filter (fun p => p.2 == s) = L.filter (fun p => p.2 == s) := by
        rw [hF, List.filter_filter]
        refine List.filter_congr ?_
        intro p _
        by_cases hp2 : p.2 = s
        · simp [hp2, Nat.pos_of_ne_zero hs]
        · simp [hp2]
      have hLr : L.filter (fun p => p.2 == s) =
          (records.filter (fun r => calculateRelevance r t == s)).map g := by
        rw [hL, List.filter_map]
        rfl
      have := hstep.map (fun item : HistoricalRecord × Nat => item.1)
      rw [hSF, hFL, hLr, List.map_map] at this
      have hid : ((fun item : HistoricalRecord × Nat => item.1) ∘
          fun r : HistoricalRecord => (r, calculateRelevance r t)) = id := by
        funext r; rfl
      rw [hg, hid, List.map_id] at this
      exact this

/-- Witness for C6 at a concrete input, including the membership and
per-score-prefix parts. -/
theorem claim_C6_witness :
    (smartFilter [brandOnlyRecord, exactRecord] ⟨"Maruti", "Swift"⟩ 1).length ≤ 1 ∧
    calculateRelevance exactRecord ⟨"Maruti", "Swift"⟩ ≠ 0 ∧
    (smartFilter [brandOnlyRecord, exactRecord] ⟨"Maruti", "Swift"⟩ 1).filter
        (fun r => calculateRelevance r ⟨"Maruti", "Swift"⟩ == 225) <+:
      [brandOnlyRecord, exactRecord].filter
        (fun r => calculateRelevance r ⟨"Maruti", "Swift"⟩ == 225) :=
  ⟨(claim_C6 [brandOnlyRecord, exactRecord] ⟨"Maruti", "Swift"⟩ 1).1,
   (claim_C6 [brandOnlyRecord, exactRecord] ⟨"Maruti", "Swift"⟩ 1).2.1
     exactRecord (by decide),
   (claim_C6 [brandOnlyRecord, exactRecord] ⟨"Maruti", "Swift"⟩ 1).2.2.2.2 225⟩

/-! ## C5: aggregator -/

/-- The records of one (brand, model) group, characterized by filtering
the whole selected sequence by group key. -/
def specGroup (records : List HistoricalRecord) (key : String) : List HistoricalRecord :=
  records.filter (fun r => groupKey r == key)

/-- The aggregation result characterized in claim terms: one candidate
group per first-seen key, in first-occurrence order, skipping groups with
no margin-eligible record. -/
def specAggList (records : List HistoricalRecord) : List AggregatedData :=
  (dedupFirst (records.map groupKey)).filterMap
    (fun k => mkAggregated (k, specGroup records k))

theorem mem_dedupFirst_aux (l : List String) :
    ∀ (acc : List String) (y : String),
      (y ∈ l.foldl (fun acc x => if x ∈ acc then acc else acc ++ [x]) acc ↔
        y ∈ acc ∨ y ∈ l) := by
  induction l with
  | nil => intro acc y; simp
  | cons x xs ih =>
    intro acc y
    rw [List.foldl_cons, ih]
    by_cases hx : x ∈ acc
    · rw [if_pos hx]
      constructor
      · rintro (h | h)
        · exact Or.inl h
        · exact Or.inr (List.mem_cons_of_mem _ h)
      · rintro (h | h)
        · exact Or.inl h
        · rcases List.mem_cons.mp h with rfl | h
          · exact Or.inl hx
          · exact Or.inr h
    · rw [if_neg hx]
      constructor
      · rintro (h | h)
        · rcases List.mem_append.mp h with h | h
          · exact Or.inl h
          · exact Or.inr (by simp [List.mem_singleton.mp h])
        · exact Or.inr (List.mem_cons_of_mem _ h)
      · rintro (h | h)
        · exact Or.inl (List.mem_append.mpr (Or.inl h))
        · rcases List.mem_cons.mp h with rfl | h
          · exact Or.inl (List.mem_append.mpr (Or.inr (by simp)))
          · exact Or.inr h

theorem mem_dedupFirst {y : String} {l : List String} :
    y ∈ dedupFirst l ↔ y ∈ l := by
  rw [dedupFirst, mem_dedupFirst_aux]
  simp

theorem nodup_dedupFirst_aux (l : List String) :
    ∀ (acc : List String), acc.Nodup →
      (l.foldl (fun acc x => if x ∈ acc then acc else acc ++ [x]) acc).Nodup := by
  induction l with
  | nil => intro acc h; exact h
  | cons x xs ih =>
    intro acc h
    rw [List.foldl_cons]
    by_cases hx : x ∈ acc
    · rw [if_pos hx]; exact ih acc h
    · rw [if_neg hx]
      refine ih _ ?_
      rw [List.nodup_append]
      exact ⟨h, List.nodup_singleton x, by simpa using fun h' => hx h'⟩

theorem nodup_dedupFirst (l : List String) : (dedupFirst l).Nodup :=
  nodup_dedupFirst_aux l [] List.nodup_nil

theorem dedupFirst_append_singleton (l : List String) (x : String) :
    dedupFirst (l ++ [x]) =
      if x ∈ l then dedupFirst l else dedupFirst l ++ [x] := by
  rw [dedupFirst, List.foldl_append, List.foldl_cons, List.foldl_nil]
  by_cases hx : x ∈ l
  · rw [if_pos hx, if_pos (by rw [← dedupFirst] at *; exact mem_dedupFirst.mpr hx)]
    rfl
  · rw [if_neg hx, if_neg (by rw [← dedupFirst] at *; exact fun h => hx (mem_dedupFirst.mp h))]
    rfl

theorem insertGrouped_map_mem {fmap : String → List HistoricalRecord}
    {key : String} {r : HistoricalRecord} :
    ∀ {keys : List String}, keys.Nodup → key ∈ keys →
      insertGrouped (keys.map (fun k => (k, fmap k))) key r =
        keys.map (fun k => (k, if k = key then fmap k ++ [r] else fmap k)) := by
  intro keys
  induction keys with
  | nil => intro _ h; exact absurd h (List.not_mem_nil key)
  | cons k₀ rest ih =>
    intro hnd hmem
    rw [List.map_cons, List.map_cons, insertGrouped]
    by_cases hk : k₀ = key
    · rw [if_pos hk, if_pos hk]
      have hout : key ∉ rest := hk ▸ (List.nodup_cons.mp hnd).1
      congr 1
      refine (List.map_congr_left ?_).symm
      intro k hkmem
      have hne : ¬ k = key := fun h => hout (h ▸ hkmem)
      rw [if_neg hne]
    · rw [if_neg hk, if_neg hk,
        ih (List.nodup_cons.mp hnd).2 (by
          rcases List.mem_cons.mp hmem with h | h
          · exact absurd h.symm hk
          · exact h)]

theorem insertGrouped_map_not_mem {fmap : String → List HistoricalRecord}
    {key : String} {r : HistoricalRecord} :
    ∀ {keys : List String}, key ∉ keys →
      insertGrouped (keys.map (fun k => (k, fmap k))) key r =
        keys.map (fun k => (k, fmap k)) ++ [(key, [r])] := by
  intro keys
  induction keys with
  | nil => intro _; rfl
  | cons k₀ rest ih =>
    intro hmem
    have hk : ¬ k₀ = key := fun h => hmem (by rw [h]; exact List.mem_cons_self _ _)
    rw [List.map_cons, insertGrouped, if_neg hk,
      ih (fun h => hmem (List.mem_cons_of_mem _ h)), List.cons_append]

theorem groupRecords_append_singleton (records : List HistoricalRecord)
    (r : HistoricalRecord) :
    groupRecords (records ++ [r]) =
      insertGrouped (groupRecords records) (groupKey r) r := by
  rw [groupRecords, groupRecords, List.foldl_append, List.foldl_cons, List.foldl_nil]

theorem groupRecords_characterization (records : List HistoricalRecord) :
    groupRecords records = (dedupFirst (records.map groupKey)).map
      (fun k => (k, specGroup records k)) := by
  induction records using List.reverseRecOn with
  | nil => rfl
  | append_singleton l r ih =>
    rw [groupRecords_append_singleton, ih, List.map_append, List.map_cons,
      List.map_nil, dedupFirst_append_singleton]
    by_cases hmem : groupKey r ∈ l.map groupKey
    · rw [if_pos hmem,
        insertGrouped_map_mem (nodup_dedupFirst _) (mem_dedupFirst.mpr hmem)]
      refine List.map_congr_left ?_
      intro k _
      by_cases hk : k = groupKey r
      · rw [if_pos hk]
        simp only [specGroup, List.filter_append]
        rw [List.filter_cons_of_pos (by simp [hk]), List.filter_nil]
      · rw [if_neg hk]
        simp only [specGroup, List.filter_append]
        rw [List.filter_cons_of_neg (by simp; exact fun h => hk h.symm), List.filter_nil,
          List.append_nil]
    · rw [if_neg hmem,
        insertGrouped_map_not_mem (fun h => hmem (mem_dedupFirst.mp h)),
        List.map_append, List.map_cons, List.map_nil]
      congr 1
      · refine List.map_congr_left ?_
        intro k hkmem
        have hk : k ≠ groupKey r := by
          intro h
          exact hmem (h ▸ mem_dedupFirst.mp hkmem)
        simp only [specGroup, List.filter_append]
        rw [List.filter_cons_of_neg (by simp; exact fun h => hk h.symm), List.filter_nil,
          List.append_nil]
      · have hempty : specGroup l (groupKey r) = [] := by
          rw [specGroup, List.filter_eq_nil_iff]
          intro x hx h
          exact hmem (by
            rw [List.mem_map]
            exact ⟨x, hx, by simpa using h⟩)
        simp only [specGroup, List.filter_append]
        rw [List.filter_cons_of_pos (by simp), List.filter_nil, ← specGroup, hempty]
        rfl

theorem aggregateData_eq_spec (records : List HistoricalRecord) :
    aggregateData records = sortDescKey (fun a => a.count) (specAggList records) := by
  simp only [aggregateData]
  rw [groupRecords_characterization, List.filterMap_map]
  rfl

theorem mem_aggregateData_iff {records : List HistoricalRecord} {g : AggregatedData} :
    g ∈ aggregateData records ↔ g ∈ specAggList records := by
  rw [aggregateData_eq_spec, (sortDescKey_perm _ _).mem_iff]

/-- **C5 (confirmed).**  Every emitted group's `avgMargin` is the mean of
per-record margins over exactly that group's margin-eligible records (both
prices truthy, bought price positive); groups with no eligible record are
omitted; the output equals the stable descending-by-count sort of the
first-seen-order aggregation, is pairwise sorted by count, and groups of
equal count keep first-seen order. -/
theorem claim_C5 (records : List HistoricalRecord) :
    aggregateData records = sortDescKey (fun a => a.count) (specAggList records) ∧
    List.Pairwise (fun a b => b.count ≤ a.count) (aggregateData records) ∧
    (∀ n : Nat, (aggregateData records).filter (fun a => a.count == n) =
      (specAggList records).filter (fun a => a.count == n)) ∧
    (∀ g ∈ aggregateData records,
      g.avgMargin = listMean
        (((specGroup records g.brandModel).filter marginEligible).map recordMargin) ∧
      (specGroup records g.brandModel).filter marginEligible ≠ []) ∧
    (∀ key : String, (specGroup records key).filter marginEligible = [] →
      ∀ g ∈ aggregateData records, g.brandModel ≠ key) := by
  have hmem : ∀ g ∈ aggregateData records,
      g.brandModel ∈ dedupFirst (records.map groupKey) ∧
      g.avgMargin = listMean
        (((specGroup records g.brandModel).filter marginEligible).map recordMargin) ∧
      (specGroup records g.brandModel).filter marginEligible ≠ [] := by
    intro g hg
    rw [mem_aggregateData_iff, specAggList, List.mem_filterMap] at hg
    obtain ⟨k, hk, hmk⟩ := hg
    simp only [mkAggregated] at hmk
    by_cases hlen : 0 < (((specGroup records k).filter marginEligible).map recordMargin).length
    · rw [if_pos hlen] at hmk
      have hgeq := (Option.some.inj hmk).symm
      have hbm : g.brandModel = k := by rw [hgeq]
      have havg : g.avgMargin = listMean
          (((specGroup records k).filter marginEligible).map recordMargin) := by
        rw [hgeq]
      rw [List.length_map] at hlen
      refine ⟨hbm ▸ hk, hbm ▸ havg, ?_⟩
      rw [hbm]
      intro hnil
      rw [hnil] at hlen
      simp at hlen
    · rw [if_neg hlen] at hmk
      exact absurd hmk (by simp)
  refine ⟨aggregateData_eq_spec records, ?_, ?_, ?_, ?_⟩
  · rw [aggregateData_eq_spec]
    exact pairwise_sortDescKey _ _
  · intro n
    rw [aggregateData_eq_spec]
    exact filter_sortDescKey_key _ n _
  · exact fun g hg => ⟨(hmem g hg).2.1, (hmem g hg).2.2⟩
  · intro key hkey g hg hbm
    exact (hmem g hg).2.2 (hbm ▸ hkey)

/-- Witness for C5's quantified parts at the concrete scenario records. -/
theorem claim_C5_witness :
    (aggregateData (parseCSV sampleLedger)).filter (fun a => a.count == 2) =
      (specAggList (parseCSV sampleLedger)).filter (fun a => a.count == 2) ∧
    (∀ g ∈ aggregateData (parseCSV sampleLedger),
      g.avgMargin = listMean
        (((specGroup (parseCSV sampleLedger) g.brandModel).filter
          marginEligible).map recordMargin) ∧
      (specGroup (parseCSV sampleLedger) g.brandModel).filter marginEligible ≠ []) :=
  ⟨(claim_C5 (parseCSV sampleLedger)).2.2.1 2,
   (claim_C5 (parseCSV sampleLedger)).2.2.2.1⟩

/-! ## C3 and C4: insight composer -/

/-- The composer's `exactMatches` for a raw ledger and target. -/
def exactMatchesOf (csv : String) (t : TargetVehicle) : List HistoricalRecord :=
  (smartFilter (parseCSV csv) t 50).filter (isExactMatch t)

/-- The margins feeding the exact-match average: over exactly the exact
matches with both prices truthy. -/
def exactMarginsOf (csv : String) (t : TargetVehicle) : List ℚ :=
  ((exactMatchesOf csv t).filter
    (fun r => truthyNum r.boughtPrice && truthyNum r.soldPrice)).map recordMargin

/-- The composer's brand-level fallback groups. -/
def brandMatchesOf (csv : String) (t : TargetVehicle) : List AggregatedData :=
  (aggregateData (smartFilter (parseCSV csv) t 50)).filter
    (fun a => containsSubstrB (lowerStr a.brandModel) (lowerStr t.brand))

/-- Weighted margin numerator Σ avgMargin × count. -/
def weightedMarginSum (bs : List AggregatedData) : ℚ :=
  (bs.map (fun a => a.avgMargin * (a.count : ℚ))).sum

/-- Total transaction count Σ count. -/
def totalCount (bs : List AggregatedData) : Nat :=
  (bs.map (fun a => a.count)).sum

theorem foldl_add_eq_sum {M : Type} [AddCommMonoid M] (f : AggregatedData → M) :
    ∀ (l : List AggregatedData) (init : M),
      l.foldl (fun s a => s + f a) init = init + (l.map f).sum := by
  intro l
  induction l with
  | nil => intro init; simp
  | cons x xs ih =>
    intro init
    rw [List.foldl_cons, ih, List.map_cons, List.sum_cons, add_assoc]

theorem parseCSV_ne_nil_of_exact {csv : String} {t : TargetVehicle}
    (hx : exactMatchesOf csv t ≠ []) : parseCSV csv ≠ [] := by
  intro h
  apply hx
  rw [exactMatchesOf, h]
  rfl

theorem jsTrim_ne_empty_of_parse {csv : String} (hp : parseCSV csv ≠ []) :
    jsTrim csv ≠ "" := by
  intro h
  apply hp
  rw [parseCSV, if_pos h]

theorem txnLine_isSome (r : HistoricalRecord) :
    (txnLine r).isSome = (truthyNum r.boughtPrice && truthyNum r.soldPrice) := by
  rw [txnLine]
  by_cases h : (truthyNum r.boughtPrice && truthyNum r.soldPrice) = true
  · rw [if_pos h, h]
    rfl
  · rw [if_neg h]
    simp only [Option.isSome_none]
    exact (Bool.eq_false_iff.mpr (fun hh => h hh)).symm

theorem sanitize_eq_buildInsights {csv : String} {t : TargetVehicle}
    (hp : parseCSV csv ≠ []) :
    sanitizeHistoricalData csv t = buildInsights (parseCSV csv) t := by
  rw [sanitizeHistoricalData, if_neg (jsTrim_ne_empty_of_parse hp)]
  simp only []
  rw [if_neg (by rwa [List.length_eq_zero])]

/-- **C3, corrected at this input.**  With a single exact match that has
no prices, the claim demands a transaction line (showing date "N/A"), but
the composer emits none: the insights contain no "N/A" at all. -/
theorem claim_C3_counterexample :
    (exactMatchesOf "Brand,Model\nMaruti,Swift" ⟨"Maruti", "Swift"⟩).length = 1 ∧
    containsSubstrB
      (sanitizeHistoricalData "Brand,Model\nMaruti,Swift" ⟨"Maruti", "Swift"⟩).insights
      "N/A" = false := by
  constructor <;> decide

/-- **C3 (amended).**  When exact matches exist, the insights are exactly
the priority header, one line per exact match among the first five *that
has both prices truthy* (in selected order, each line produced by
`txnLine`: date or "N/A", brand/model/variant/year, prices in Lakhs with
2 decimals, margin to 1 decimal), then — iff some exact match has both
prices truthy — the average-margin summary over exactly those matches,
then the database-context line; `marginData` is that average with
description "<N> similar <brand> <model> transactions", or null if no
exact match has truthy prices. -/
theorem claim_C3 (csv : String) (t : TargetVehicle)
    (hx : exactMatchesOf csv t ≠ []) :
    (sanitizeHistoricalData csv t).insights = String.intercalate "\n"
      ([priorityHeader t] ++ ((exactMatchesOf csv t).take 5).filterMap txnLine ++
        (if 0 < (exactMarginsOf csv t).length then
          ["AVERAGE MARGIN for this model: " ++
            jsToFixed (listMean (exactMarginsOf csv t)) 1 ++ "% over " ++
            toString (exactMarginsOf csv t).length ++ " transactions."]
        else []) ++
        [contextLine (parseCSV csv).length]) ∧
    (sanitizeHistoricalData csv t).marginData =
      (if 0 < (exactMarginsOf csv t).length then
        some ⟨listMean (exactMarginsOf csv t),
          toString (exactMarginsOf csv t).length ++ " similar " ++ t.brand ++
            " " ++ t.model ++ " transactions"⟩
      else none) ∧
    (∀ r ∈ (exactMatchesOf csv t).take 5,
      (txnLine r).isSome = (truthyNum r.boughtPrice && truthyNum r.soldPrice)) := by
  have hp := parseCSV_ne_nil_of_exact hx
  rw [sanitize_eq_buildInsights hp]
  rw [buildInsights]
  simp only []
  rw [if_pos (by rw [← exactMatchesOf]; exact List.length_pos.mpr hx)]
  rw [← exactMatchesOf, ← exactMarginsOf]
  refine ⟨?_, ?_, fun r _ => txnLine_isSome r⟩
  · by_cases hm : 0 < (exactMarginsOf csv t).length
    · rw [if_pos hm, if_pos hm]
    · rw [if_neg hm, if_neg hm]
  · by_cases hm : 0 < (exactMarginsOf csv t).length
    · rw [if_pos hm, if_pos hm]
    · rw [if_neg hm, if_neg hm]

/-- Witness for C3 at the concrete round-trip ledger. -/
theorem claim_C3_witness :
    (sanitizeHistoricalData sampleLedger sampleTarget).marginData =
      (if 0 < (exactMarginsOf sampleLedger sampleTarget).length then
        some ⟨listMean (exactMarginsOf sampleLedger sampleTarget),
          toString (exactMarginsOf sampleLedger sampleTarget).length ++
            " similar " ++ sampleTarget.brand ++ " " ++ sampleTarget.model ++
            " transactions"⟩
      else none) :=
  (claim_C3 sampleLedger sampleTarget (by decide)).2.1

/-- **C4, corrected at this input.**  With the scenario ledger and target
Honda City no group key contains "Honda" and `marginData` is null as
claimed, but the insights carry no statement that no brand (Honda)
transactions were found — they never contain "no honda" (case-insensitively);
the only lines are the no-exact-transactions line and the database context. -/
theorem claim_C4_counterexample :
    (sanitizeHistoricalData sampleLedger ⟨"Honda", "City"⟩).marginData = none ∧
    brandMatchesOf sampleLedger ⟨"Honda", "City"⟩ = [] ∧
    containsSubstrB
      (lowerStr (sanitizeHistoricalData sampleLedger ⟨"Honda", "City"⟩).insights)
      (lowerStr "No Honda") = false ∧
    (sanitizeHistoricalData sampleLedger ⟨"Honda", "City"⟩).insights =
      "No exact past transactions for Honda City.\n\nDatabase Context: 2 total records." := by
  refine ⟨by decide, by decide, by decide, by decide⟩

/-- **C4 (amended).**  With no exact match, the composer emits the
no-exact-transactions line followed only by the database-context line
(identically in both fallback outcomes); if some aggregated group's key
contains the target brand case-insensitively, `marginData` is the
weighted average (Σ avgMargin×count)/(Σ count) over exactly those groups
with description "<totalCount> <brand> transactions (brand average)";
if none does, `marginData` is null (and no additional brand-level message
is emitted). -/
theorem claim_C4 (csv : String) (t : TargetVehicle)
    (hp : parseCSV csv ≠ []) (hx : exactMatchesOf csv t = []) :
    (sanitizeHistoricalData csv t).insights = String.intercalate "\n"
      ["No exact past transactions for " ++ t.brand ++ " " ++ t.model ++ ".",
       contextLine (parseCSV csv).length] ∧
    (brandMatchesOf csv t ≠ [] →
      (sanitizeHistoricalData csv t).marginData =
        some ⟨weightedMarginSum (brandMatchesOf csv t) /
            (totalCount (brandMatchesOf csv t) : ℚ),
          toString (totalCount (brandMatchesOf csv t)) ++ " " ++ t.brand ++
            " transactions (brand average)"⟩) ∧
    (brandMatchesOf csv t = [] →
      (sanitizeHistoricalData csv t).marginData = none) := by
  rw [sanitize_eq_buildInsights hp]
  rw [buildInsights]
  simp only []
  rw [if_neg (by rw [← exactMatchesOf, hx]; simp)]
  rw [← brandMatchesOf]
  refine ⟨rfl, ?_, ?_⟩
  · intro hb
    rw [if_pos (List.length_pos.mpr hb)]
    rw [foldl_add_eq_sum, foldl_add_eq_sum]
    simp only [zero_add, Nat.zero_add]
    rw [← weightedMarginSum, ← totalCount]
  · intro hb
    rw [if_neg (by rw [hb]; simp)]

/-- Witness for C4: both fallback outcomes at concrete inputs — target
Honda City (no brand group) and target Maruti Baleno (brand group found). -/
theorem claim_C4_witness :
    (sanitizeHistoricalData sampleLedger ⟨"Honda", "City"⟩).marginData = none ∧
    (sanitizeHistoricalData sampleLedger ⟨"Maruti", "Baleno"⟩).marginData =
      some ⟨weightedMarginSum (brandMatchesOf sampleLedger ⟨"Maruti", "Baleno"⟩) /
          (totalCount (brandMatchesOf sampleLedger ⟨"Maruti", "Baleno"⟩) : ℚ),
        toString (totalCount (brandMatchesOf sampleLedger ⟨"Maruti", "Baleno"⟩)) ++
          " Maruti transactions (brand average)"⟩ :=
  ⟨(claim_C4 sampleLedger ⟨"Honda", "City"⟩ (by decide) (by decide)).2.2 (by decide),
   (claim_C4 sampleLedger ⟨"Maruti", "Baleno"⟩ (by decide) (by decide)).2.1 (by decide)⟩

/-! ## C10: falsy (zero/NaN) prices behave exactly like absent prices -/

/-- Replace a price that is present but falsy (NaN or 0) by an absent
price; keep truthy prices. -/
def clearPrice : Option JsNum → Option JsNum
  | some (.num q) => if q = 0 then none else some (.num q)
  | _ => none

/-- Erase falsy prices from a record, keeping all other fields. -/
def clearFalsyPrices (r : HistoricalRecord) : HistoricalRecord :=
  { r with boughtPrice := clearPrice r.boughtPrice,
           soldPrice := clearPrice r.soldPrice }

theorem truthyNum_clearPrice (o : Option JsNum) :
    truthyNum (clearPrice o) = truthyNum o := by
  match o with
  | none => rfl
  | some .nan => rfl
  | some (.num q) =>
    by_cases hq : q = 0
    · rw [clearPrice, if_pos hq]
      simp [truthyNum, hq]
    · rw [clearPrice, if_neg hq]

theorem clearPrice_cases (o : Option JsNum) :
    clearPrice o = o ∨ (clearPrice o = none ∧ truthyNum o = false) := by
  match o with
  | none => exact Or.inr ⟨rfl, rfl⟩
  | some .nan => exact Or.inr ⟨rfl, rfl⟩
  | some (.num q) =>
    by_cases hq : q = 0
    · refine Or.inr ⟨by rw [clearPrice, if_pos hq], by simp [truthyNum, hq]⟩
    · exact Or.inl (by rw [clearPrice, if_neg hq])

theorem clearPrice_of_truthy {o : Option JsNum} (h : truthyNum o = true) :
    clearPrice o = o := by
  rcases clearPrice_cases o with hc | ⟨-, hf⟩
  · exact hc
  · rw [h] at hf; exact absurd hf (by decide)

theorem boughtPrice_clearFalsy (r : HistoricalRecord) :
    (clearFalsyPrices r).boughtPrice = clearPrice r.boughtPrice := rfl

theorem soldPrice_clearFalsy (r : HistoricalRecord) :
    (clearFalsyPrices r).soldPrice = clearPrice r.soldPrice := rfl

theorem calculateRelevance_clear (r : HistoricalRecord) (t : TargetVehicle) :
    calculateRelevance (clearFalsyPrices r) t = calculateRelevance r t := rfl

theorem groupKey_clear (r : HistoricalRecord) :
    groupKey (clearFalsyPrices r) = groupKey r := rfl

theorem isExactMatch_clear (t : TargetVehicle) (r : HistoricalRecord) :
    isExactMatch t (clearFalsyPrices r) = isExactMatch t r := rfl

theorem marginEligible_clear (r : HistoricalRecord) :
    marginEligible (clearFalsyPrices r) = marginEligible r := by
  rw [marginEligible, marginEligible, boughtPrice_clearFalsy, soldPrice_clearFalsy,
    truthyNum_clearPrice, truthyNum_clearPrice]
  by_cases hb : truthyNum r.boughtPrice = true
  · rw [clearPrice_of_truthy hb]
  · rw [Bool.eq_false_iff.mpr (fun h => hb h)]
    simp

theorem recordMargin_clear_of_truthy {r : HistoricalRecord}
    (hb : truthyNum r.boughtPrice = true) (hs : truthyNum r.soldPrice = true) :
    recordMargin (clearFalsyPrices r) = recordMargin r := by
  rw [recordMargin, recordMargin, boughtPrice_clearFalsy, soldPrice_clearFalsy,
    clearPrice_of_truthy hb, clearPrice_of_truthy hs]

theorem txnLine_clear (r : HistoricalRecord) :
    txnLine (clearFalsyPrices r) = txnLine r := by
  rcases clearPrice_cases r.boughtPrice with hb | ⟨hb, hbf⟩
  · rcases clearPrice_cases r.soldPrice with hs | ⟨hs, hsf⟩
    · have heq : clearFalsyPrices r = r := by
        rw [clearFalsyPrices, hb, hs]
      rw [heq]
    · have h1 : (clearFalsyPrices r).soldPrice = none := by
        rw [soldPrice_clearFalsy, hs]
      rw [txnLine, txnLine]
      rw [if_neg (by rw [h1]; simp [truthyNum]),
        if_neg (by rw [hsf]; simp)]
  · have h1 : (clearFalsyPrices r).boughtPrice = none := by
      rw [boughtPrice_clearFalsy, hb]
    rw [txnLine, txnLine]
    rw [if_neg (by rw [h1]; simp [truthyNum]),
      if_neg (by rw [hbf]; simp)]

theorem filter_map_clear (p : HistoricalRecord → Bool)
    (hp : ∀ r, p (clearFalsyPrices r) = p r) (l : List HistoricalRecord) :
    (l.map clearFalsyPrices).filter p = (l.filter p).map clearFalsyPrices := by
  rw [List.filter_map]
  congr 1
  refine List.filter_congr ?_
  intro r _
  exact hp r

theorem insertDescKey_map {α : Type} (g : α → α) (f : α → Nat)
    (hf : ∀ y, f (g y) = f y) (x : α) :
    ∀ (l : List α), insertDescKey f (g x) (l.map g) = (insertDescKey f x l).map g := by
  intro l
  induction l with
  | nil => rfl
  | cons y ys ih =>
    rw [List.map_cons, insertDescKey, insertDescKey, hf, hf]
    by_cases h : f x < f y
    · rw [if_pos h, if_pos h, List.map_cons, ih]
    · rw [if_neg h, if_neg h, List.map_cons, List.map_cons]

theorem sortDescKey_map {α : Type} (g : α → α) (f : α → Nat)
    (hf : ∀ y, f (g y) = f y) :
    ∀ (l : List α), sortDescKey f (l.map g) = (sortDescKey f l).map g := by
  intro l
  induction l with
  | nil => rfl
  | cons x xs ih =>
    rw [List.map_cons, sortDescKey, sortDescKey, ih, insertDescKey_map g f hf]

theorem smartFilter_clear (records : List HistoricalRecord) (t : TargetVehicle)
    (k : Nat) :
    smartFilter (records.map clearFalsyPrices) t k =
      (smartFilter records t k).map clearFalsyPrices := by
  rw [smartFilter, smartFilter]
  have h1 : (records.map clearFalsyPrices).map
      (fun record => (record, calculateRelevance record t)) =
      (records.map (fun record => (record, calculateRelevance record t))).map
        (fun p => (clearFalsyPrices p.1, p.2)) := by
    rw [List.map_map, List.map_map]
    refine List.map_congr_left ?_
    intro r _
    simp only [Function.comp_apply]
    rw [calculateRelevance_clear]
  rw [h1, List.filter_map]
  have h2 : List.filter ((fun item => decide (0 < item.2)) ∘
      (fun p : HistoricalRecord × Nat => (clearFalsyPrices p.1, p.2)))
      (records.map (fun record => (record, calculateRelevance record t))) =
      List.filter (fun item => decide (0 < item.2))
      (records.map (fun record => (record, calculateRelevance record t))) := by
    refine List.filter_congr ?_
    intro p _
    rfl
  rw [h2, sortDescKey_map (fun p => (clearFalsyPrices p.1, p.2))
    (fun item => item.2) (fun y => rfl), ← List.map_take, List.map_map,
    List.map_map]
  rfl

theorem specGroup_clear (records : List HistoricalRecord) (key : String) :
    specGroup (records.map clearFalsyPrices) key =
      (specGroup records key).map clearFalsyPrices :=
  filter_map_clear _ (fun r => by rw [groupKey_clear]) records

theorem yearsOf_clear (rs : List HistoricalRecord) :
    yearsOf (rs.map clearFalsyPrices) = yearsOf rs := by
  rw [yearsOf, yearsOf, List.filterMap_map]
  rfl

theorem mkAggregated_clear (k : String) (rs : List HistoricalRecord) :
    mkAggregated (k, rs.map clearFalsyPrices) = mkAggregated (k, rs) := by
  rw [mkAggregated, mkAggregated]
  have hfil : (rs.map clearFalsyPrices).filter marginEligible =
      (rs.filter marginEligible).map clearFalsyPrices :=
    filter_map_clear _ marginEligible_clear rs
  have hmar : ((rs.map clearFalsyPrices).filter marginEligible).map recordMargin =
      (rs.filter marginEligible).map recordMargin := by
    rw [hfil, List.map_map]
    refine List.map_congr_left ?_
    intro r hr
    have hmem := List.mem_filter.mp hr
    have he : marginEligible r = true := hmem.2
    rw [marginEligible, Bool.and_eq_true, Bool.and_eq_true] at he
    simp only [Function.comp_apply]
    exact recordMargin_clear_of_truthy he.1.1 he.1.2
  simp only [hmar, List.length_map, yearsOf_clear]

theorem aggregateData_clear (records : List HistoricalRecord) :
    aggregateData (records.map clearFalsyPrices) = aggregateData records := by
  rw [aggregateData, aggregateData]
  congr 1
  rw [groupRecords_characterization, groupRecords_characterization]
  have hkeys : (records.map clearFalsyPrices).map groupKey = records.map groupKey := by
    rw [List.map_map]
    rfl
  rw [hkeys, List.filterMap_map, List.filterMap_map]
  refine List.filterMap_congr ?_
  intro k _
  simp only [Function.comp_apply]
  rw [specGroup_clear, mkAggregated_clear]

theorem txnLine_comp : txnLine ∘ clearFalsyPrices = txnLine :=
  funext txnLine_clear

theorem buildInsights_clear (records : List HistoricalRecord) (t : TargetVehicle) :
    buildInsights (records.map clearFalsyPrices) t = buildInsights records t := by
  rw [buildInsights, buildInsights]
  simp only []
  rw [smartFilter_clear, aggregateData_clear,
    filter_map_clear _ (isExactMatch_clear t) _, List.length_map,
    ← List.map_take, List.filterMap_map, txnLine_comp,
    filter_map_clear _ (fun r => by
      rw [boughtPrice_clearFalsy, soldPrice_clearFalsy,
        truthyNum_clearPrice, truthyNum_clearPrice]) _,
    List.map_map, List.length_map]
  have hmar : (((smartFilter records t 50).filter (isExactMatch t)).filter
        (fun r => truthyNum r.boughtPrice && truthyNum r.soldPrice)).map
        (recordMargin ∘ clearFalsyPrices) =
      (((smartFilter records t 50).filter (isExactMatch t)).filter
        (fun r => truthyNum r.boughtPrice && truthyNum r.soldPrice)).map
        recordMargin := by
    refine List.map_congr_left ?_
    intro r hr
    have hmem := (List.mem_filter.mp hr).2
    rw [Bool.and_eq_true] at hmem
    simp only [Function.comp_apply]
    exact recordMargin_clear_of_truthy hmem.1 hmem.2
  rw [hmar]
  simp only [List.length_map]

/-- **C10 (confirmed).**  A present-but-falsy price (0 or the NaN parse
sentinel) behaves exactly like an absent price throughout the margin
computations: erasing all falsy prices changes neither the aggregation
output nor the composed `ValuationInsight`. -/
theorem claim_C10 (records : List HistoricalRecord) (t : TargetVehicle) :
    (∀ r : HistoricalRecord,
      (r.boughtPrice = some .nan ∨ r.boughtPrice = some (.num 0)) →
      marginEligible r = false ∧ txnLine r = none) ∧
    aggregateData (records.map clearFalsyPrices) = aggregateData records ∧
    buildInsights (records.map clearFalsyPrices) t = buildInsights records t := by
  refine ⟨?_, aggregateData_clear records, buildInsights_clear records t⟩
  intro r hr
  have hb : truthyNum r.boughtPrice = false := by
    rcases hr with h | h <;> rw [h] <;> simp [truthyNum]
  constructor
  · rw [marginEligible, hb]
    simp
  · rw [txnLine, if_neg (by rw [hb]; simp)]

/-- Witness for C10 at concrete inputs: a record with a present-but-zero
sold price is excluded, and clearing falsy prices preserves the pipeline
output on a concrete ledger with a zero and an unparseable price. -/
theorem claim_C10_witness :
    marginEligible { boughtPrice := some (.num 0), soldPrice := some (.num 5) } = false ∧
    aggregateData ((parseCSV "Brand,Model,Bought,Sold\nMaruti,Swift,0,460000\nMaruti,Swift,450000,abc").map
      clearFalsyPrices) =
      aggregateData (parseCSV "Brand,Model,Bought,Sold\nMaruti,Swift,0,460000\nMaruti,Swift,450000,abc") :=
  ⟨(claim_C10 [] ⟨"Maruti", "Swift"⟩).1
      { boughtPrice := some (.num 0), soldPrice := some (.num 5) }
      (Or.inr rfl) |>.1,
   (claim_C10 (parseCSV "Brand,Model,Bought,Sold\nMaruti,Swift,0,460000\nMaruti,Swift,450000,abc")
      ⟨"Maruti", "Swift"⟩).2.1⟩

end AutoValuate
